import Mathlib

/-!
# Incremental analysis cache of the thesis-checker extension

Shallow embedding of the incremental-analysis core of the thesis-checker
repository (`src/extension.ts`, `src/analyzers/logicAnalyzer.ts`,
`src/analyzers/llmAnalyzer.ts`), together with theorems settling the
specification claims about it.

Modelling conventions:
* strings are Lean `String`s; JS `charCodeAt` code units are modelled by the
  characters' Unicode scalar values (`Char.toNat`), which agrees with the
  source for all characters in the Basic Multilingual Plane;
* JS `Set`/`Map` values are modelled by lists with decidable membership
  (duplicates are irrelevant: all uses are membership tests);
* JS objects used as records keyed by element key are modelled by association
  lists (`List (ElementKey × CachedElement)`);
* the identity-keyed `Map<DocumentElement, string>` element-key cache is
  modelled positionally: `elementKeys` returns the list of keys aligned with
  the element sequence, and the pair list `keyedElements` plays the role of
  `buildElementKey` applied to each element object;
* fallible I/O (`readFile` + `JSON.parse`) is modelled by an explicit
  `LoadResult` value, so the `try/catch` structure of the loaders becomes a
  total function.
-/

namespace ThesisChecker

/-- A line/character pair, as `vscode.Position`. -/
structure Pos where
  line : Nat
  character : Nat
deriving DecidableEq

/-- A document range, as `vscode.Range` (serialized by `serializeRange` into
`{start, end}`; the `end` field is called `stop` here because `end` is a Lean
keyword). -/
structure Range where
  start : Pos
  stop : Pos
deriving DecidableEq

/-- The `ElementType` union from `src/types.ts`. The `section` member is
written `«section»` because `section` is a Lean keyword. -/
inductive ElementType where
  | chapter
  | title
  | «section»
  | subsection
  | subsubsection
  | sentence
  | equation
  | figure
  | table
  | environment
deriving DecidableEq

/-- A `DocumentElement` from `src/types.ts`. Of the `metadata` record only the
`hasCaption` field is ever consulted by the embedded checks
(`checkCaptions`), so the metadata map is modelled by that single field. -/
structure Element where
  type : ElementType
  content : String
  filePath : String
  range : Range
  hasCaption : Bool
deriving DecidableEq

/-- The djb2-style rolling hash `hashContent` of `extension.ts`:
`hash = 5381; hash = (hash << 5) + hash + code |0` per character, returned as
the unsigned 32-bit value (`hash >>> 0`). Both the per-step `|0` and the
final `>>> 0` are congruences modulo 2^32, so the whole computation is the
fold below. -/
def hashContent (value : String) : Nat :=
  value.data.foldl (fun h c => (h * 33 + c.toNat) % 4294967296) 5381

/-- The stable element identity built by `buildElementKey` /
`buildElementKeyCache`: the interpolated string
`` `${filePath}:${type}:${hash}:${index}` ``. The string is injective in the
four fields (the hash and index are digit segments and the type is one of ten
fixed words, so the string parses uniquely from the right), hence the key is
modelled as the 4-tuple itself. -/
structure ElementKey where
  filePath : String
  type : ElementType
  hash : Nat
  occurrence : Nat
deriving DecidableEq

/-- The per-`(filePath, kind, hash)` bucket used as counter key in
`buildElementKeyCache`. -/
def keyBaseOf (e : Element) : String × ElementType × Nat :=
  (e.filePath, e.type, hashContent e.content)

/-- The loop body of `buildElementKeyCache`: walk the element sequence keeping
a per-bucket counter (`counts.get(base) ?? 0`), assigning each element its
bucket's current count as `occurrenceIndex`. -/
def buildKeysAux (counts : String × ElementType × Nat → Nat) :
    List Element → List ElementKey
  | [] => []
  | e :: rest =>
      let b := keyBaseOf e
      ⟨e.filePath, e.type, hashContent e.content, counts b⟩ ::
        buildKeysAux (fun x => if x = b then counts b + 1 else counts x) rest

/-- `buildElementKeyCache`: the key of each element of the sequence, aligned
by position (the source keys the map by object identity, which for a fixed
input sequence is exactly the position). -/
def elementKeys (es : List Element) : List ElementKey :=
  buildKeysAux (fun _ => 0) es

/-- The element sequence zipped with its keys: the positional rendering of the
identity-keyed `Map<DocumentElement, string>` cache. -/
def keyedElements (es : List Element) : List (Element × ElementKey) :=
  es.zip (elementKeys es)

/-- `isSectionType` from `extension.ts`. -/
def isSectionType : ElementType → Bool
  | .chapter => true
  | .«section» => true
  | .subsection => true
  | .subsubsection => true
  | _ => false

/-- A persisted element snapshot entry (`CachedElement` in `extension.ts`),
metadata again reduced to the `hasCaption` field. -/
structure CachedElement where
  hash : Nat
  filePath : String
  type : ElementType
  range : Range
  content : String
  hasCaption : Bool
deriving DecidableEq

/-- A persisted diagnostic record (`CachedDiagnostic` in `extension.ts`).
`code` is only ever a string in this code base, so the `string | number`
union is modelled by `Option String`. -/
structure CachedDiagnostic where
  filePath : String
  range : Range
  message : String
  severity : Nat
  source : Option String
  code : Option String
  elementKey : Option ElementKey
deriving DecidableEq

/-- An in-memory diagnostic (`AnalyzerDiagnostic` from `src/types.ts`): the
`vscode.Uri` is modelled by its `fsPath` and the `vscode.Diagnostic` by its
consulted fields. -/
structure AnalyzerDiagnostic where
  filePath : String
  range : Range
  message : String
  severity : Nat
  source : Option String
  code : Option String
deriving DecidableEq

/-- `vscode.DiagnosticSeverity.Warning`. -/
def warningSeverity : Nat := 1

/-- The persisted parse snapshot (`ParseCache`). -/
structure ParseCache where
  version : Nat
  elements : List (ElementKey × CachedElement)
deriving DecidableEq

/-- The persisted per-family diagnostics snapshot (`DiagnosticsCache`). -/
structure DiagnosticsCache where
  version : Nat
  diagnostics : List CachedDiagnostic
  elementKeys : Option (List ElementKey)
  llmConfigSignature : Option String
deriving DecidableEq

/-- `CACHE_VERSION` in `extension.ts`. -/
def CACHE_VERSION : Nat := 2

/-- The result of the change-classification pass `buildElementCache`. -/
structure ElementCacheResult where
  entries : List (ElementKey × CachedElement)
  unchangedKeys : List ElementKey
  newKeys : List ElementKey
  removedKeys : List ElementKey
  removedSentence : Bool

/-- The snapshot entry stored for one element by `buildElementCache`. -/
def cachedElementOf (e : Element) : CachedElement :=
  { hash := hashContent e.content
    filePath := e.filePath
    type := e.type
    range := e.range
    content := e.content
    hasCaption := e.hasCaption }

/-- `buildElementCache` from `extension.ts`: rebuild the element snapshot for
the current sequence and classify keys against the previous parse snapshot
into unchanged / new / removed (an element key of the record is unique within
one sequence, so the object-assignment loop is a plain map). -/
def buildElementCache (es : List Element) (cache : Option ParseCache) :
    ElementCacheResult :=
  let previous := match cache with
    | some c => c.elements
    | none => []
  let entries := (keyedElements es).map (fun p => (p.2, cachedElementOf p.1))
  let unchangedKeys := ((keyedElements es).filter (fun p =>
    match previous.lookup p.2 with
    | some prev => prev.hash == hashContent p.1.content
    | none => false)).map (·.2)
  let newKeys := ((keyedElements es).filter (fun p =>
    (previous.lookup p.2).isNone)).map (·.2)
  let removed := previous.filter (fun q => (entries.lookup q.1).isNone)
  { entries := entries
    unchangedKeys := unchangedKeys
    newKeys := newKeys
    removedKeys := removed.map (·.1)
    removedSentence := removed.any (fun q => q.2.type == .sentence) }

/-- `collectChangedSentenceKeys`: keys of current sentence-kind elements whose
key is absent from the baseline key set. -/
def collectChangedSentenceKeys (sentencesK : List (Element × ElementKey))
    (baselineKeys : List ElementKey) : List ElementKey :=
  (sentencesK.filter (fun p => decide (p.2 ∉ baselineKeys))).map (·.2)

/-- `collectChangedCaptionKeys`: keys of current figure/table elements whose
key is absent from the baseline key set. -/
def collectChangedCaptionKeys (elemsK : List (Element × ElementKey))
    (baselineKeys : List ElementKey) : List ElementKey :=
  ((elemsK.filter (fun p =>
      (p.1.type == .figure || p.1.type == .table) &&
        decide (p.2 ∉ baselineKeys)))).map (·.2)

/-- `hasRemovedKeys`: does the baseline contain a key (of any element kind)
that is no longer a current key? -/
def hasRemovedKeys (currentKeys baselineKeys : List ElementKey) : Bool :=
  baselineKeys.any (fun k => decide (k ∉ currentKeys))

/-- `collectSectionFilesForLogic`: on any removal, the files of all
section-kind elements; otherwise the files of changed sentences and of
section-kind elements missing from the baseline. -/
def collectSectionFilesForLogic (elemsK : List (Element × ElementKey))
    (baselineKeys : List ElementKey) (changedSentenceKeys : List ElementKey)
    (hasRemovals : Bool) : List String :=
  if hasRemovals then
    ((elemsK.filter (fun p => isSectionType p.1.type)).map (·.1.filePath))
  else
    ((elemsK.filter (fun p =>
        (p.1.type == .sentence && decide (p.2 ∈ changedSentenceKeys)) ||
          (isSectionType p.1.type && decide (p.2 ∉ baselineKeys)))).map
      (·.1.filePath))

/-- `collectSectionKeysForFiles`: keys of all section-kind elements located in
one of the given files. -/
def collectSectionKeysForFiles (elemsK : List (Element × ElementKey))
    (files : List String) : List ElementKey :=
  if files.isEmpty then []
  else
    ((elemsK.filter (fun p =>
        decide (p.1.filePath ∈ files) && isSectionType p.1.type)).map (·.2))

/-- The scanning loop of `findEarliestChangedSentenceIndex` (index-carrying
recursion mirroring the `for` loop). -/
def findEarliestAux (unchangedKeys : List ElementKey) :
    List (Element × ElementKey) → Nat → Option Nat
  | [], _ => none
  | p :: rest, i =>
      if p.2 ∈ unchangedKeys then findEarliestAux unchangedKeys rest (i + 1)
      else some i

/-- `findEarliestChangedSentenceIndex`: `0` on the removal flag, otherwise the
first position in the ordered sentence sequence whose key is not in the given
key set (`undefined`, i.e. `none`, when every sentence key is). -/
def findEarliestChangedSentenceIndex (sentencesK : List (Element × ElementKey))
    (unchangedKeys : List ElementKey) (removedSentence : Bool) : Option Nat :=
  if removedSentence then some 0
  else findEarliestAux unchangedKeys sentencesK 0

/-- `collectSentenceKeysFromIndex`: keys of the sentence suffix starting at the
given index (empty for `undefined`). -/
def collectSentenceKeysFromIndex (sentencesK : List (Element × ElementKey))
    (startIndex : Option Nat) : List ElementKey :=
  match startIndex with
  | none => []
  | some i => ((sentencesK.drop i).map (·.2))

/-- `collectBaselineKeys`: the stored `elementKeys` of a diagnostics snapshot
when present, else the element keys occurring in its records. -/
def collectBaselineKeys (cache : Option DiagnosticsCache) : List ElementKey :=
  match cache with
  | none => []
  | some c =>
      match c.elementKeys with
      | some ks => ks
      | none => c.diagnostics.filterMap (·.elementKey)

/-- `collectRecheckKeys`: current keys minus baseline keys. -/
def collectRecheckKeys (currentKeys baselineKeys : List ElementKey) :
    List ElementKey :=
  currentKeys.filter (fun k => decide (k ∉ baselineKeys))

/-- JS `String.prototype.startsWith`, as a prefix test on the characters. -/
def strStartsWith (s pre : String) : Bool :=
  pre.data.isPrefixOf s.data

/-- `filterCachedLlmEntries`: keep a record iff it has an element key, its
source starts with `"LLM:"`, its key is a current key and its key is not a
recheck key. -/
def filterCachedLlmEntries (cache : Option DiagnosticsCache)
    (recheckKeys currentKeys : List ElementKey) : List CachedDiagnostic :=
  match cache with
  | none => []
  | some c =>
      c.diagnostics.filter (fun entry =>
        match entry.elementKey, entry.source with
        | some k, some s =>
            strStartsWith s "LLM:" && decide (k ∈ currentKeys) &&
              decide (k ∉ recheckKeys)
        | _, _ => false)

/-- `filterCachedLogicEntries`: keep a record iff it has an element key, its
source does not start with `"LLM:"` (an absent source passes this test, as in
`entry.source?.startsWith`), its key is a current key and its key is not a
recheck key. -/
def filterCachedLogicEntries (cache : Option DiagnosticsCache)
    (recheckKeys currentKeys : List ElementKey) : List CachedDiagnostic :=
  match cache with
  | none => []
  | some c =>
      c.diagnostics.filter (fun entry =>
        match entry.elementKey with
        | none => false
        | some k =>
            (match entry.source with
              | some s => !strStartsWith s "LLM:"
              | none => true) &&
              decide (k ∈ currentKeys) && decide (k ∉ recheckKeys))

/-- `buildElementKeyMap`: the location-to-key map. `Map.set` lets later
insertions win, so the lookup finds the last element carrying the location
(the location string `` `${filePath}:${sl}:${sc}-${el}:${ec}` `` is injective
in the pair, so the map is modelled on the pair directly). -/
def buildElementKeyMap (es : List Element) (loc : String × Range) :
    Option ElementKey :=
  ((keyedElements es).reverse.find? (fun p =>
    decide ((p.1.filePath, p.1.range) = loc))).map (·.2)

/-- `serializeDiagnostics`: store each diagnostic's fields and attach the key
of the element at the diagnostic's location, when one exists. -/
def serializeDiagnostics (results : List AnalyzerDiagnostic)
    (keyMap : String × Range → Option ElementKey) : List CachedDiagnostic :=
  results.map (fun r =>
    { filePath := r.filePath
      range := r.range
      message := r.message
      severity := r.severity
      source := r.source
      code := r.code
      elementKey := keyMap (r.filePath, r.range) })

/-- `deserializeDiagnostics`: replay a stored record, substituting its range
with the current element's range when the record's key resolves in the
element snapshot, falling back to the stored range otherwise. The guard
`if (entry.source)` makes an empty-string source fall back to an unset
source. -/
def deserializeDiagnostics (entries : List CachedDiagnostic)
    (elementCache : ElementKey → Option CachedElement) :
    List AnalyzerDiagnostic :=
  entries.map (fun entry =>
    let rangeSource :=
      match entry.elementKey with
      | some k =>
          match elementCache k with
          | some ce => ce.range
          | none => entry.range
      | none => entry.range
    { filePath := entry.filePath
      range := rangeSource
      message := entry.message
      severity := entry.severity
      source :=
        match entry.source with
        | some s => if s = "" then none else some s
        | none => none
      code := entry.code })

/-- Outcome of reading and JSON-parsing a persisted snapshot file:
`ioError` models a failed `readFile`, `parseError` a `JSON.parse` throw,
`ok` a successfully parsed value. -/
inductive LoadResult (α : Type) where
  | ioError
  | parseError
  | ok (value : α)

/-- `loadParseCache`: the `try/catch` swallows both failure modes, and a
version mismatch is mapped to `undefined` as well, so the loader is total
and never surfaces an error. -/
def loadParseCache (raw : LoadResult ParseCache) : Option ParseCache :=
  match raw with
  | .ioError => none
  | .parseError => none
  | .ok parsed => if parsed.version = CACHE_VERSION then some parsed else none

/-- `loadDiagnosticsCache`: identical failure handling for the per-family
diagnostics snapshots. -/
def loadDiagnosticsCache (raw : LoadResult DiagnosticsCache) :
    Option DiagnosticsCache :=
  match raw with
  | .ioError => none
  | .parseError => none
  | .ok parsed => if parsed.version = CACHE_VERSION then some parsed else none

/-! ## The logic analyzer (`LogicAnalyzer`, incremental revision) -/

/-- JS `String.prototype.trim`, restricted to the ASCII whitespace recognised
by `Char.isWhitespace` (sufficient for this corpus). -/
def strTrim (s : String) : String :=
  String.mk
    (((s.data.dropWhile Char.isWhitespace).reverse.dropWhile
      Char.isWhitespace).reverse)

/-- The character class of `SENTENCE_PUNCTUATION_REGEX =
/[.!?。？！：:；;]/u`. -/
def SENTENCE_PUNCTUATION_CHARS : List Char :=
  ['.', '!', '?', '。', '？', '！', '：', ':', '；', ';']

/-- `SENTENCE_PUNCTUATION_REGEX.test(value)`: the pattern is unanchored, so
the test is containment of any of the characters. -/
def hasSentencePunctuation (value : String) : Bool :=
  value.data.any (fun c => SENTENCE_PUNCTUATION_CHARS.contains c)

/-- `checkSentencePunctuation`: warn on every sentence whose trimmed, nonempty
content contains no sentence punctuation. -/
def checkSentencePunctuation (elements : List Element) :
    List AnalyzerDiagnostic :=
  elements.filterMap (fun e =>
    if e.type == ElementType.sentence then
      let value := strTrim e.content
      if value == "" then none
      else if hasSentencePunctuation value then none
      else some
        { filePath := e.filePath
          range := e.range
          message := "句子缺少句末标点。"
          severity := warningSeverity
          source := some "Thesis Logic"
          code := none }
    else none)

/-- `checkCaptions`: warn on every figure/table without
`metadata.hasCaption`. -/
def checkCaptions (elements : List Element) : List AnalyzerDiagnostic :=
  elements.filterMap (fun e =>
    if e.type == ElementType.figure || e.type == ElementType.table then
      if e.hasCaption then none
      else some
        { filePath := e.filePath
          range := e.range
          message :=
            if e.type == ElementType.figure then
              "图缺少 \\caption\x7b...\x7d。"
            else "表缺少 \\caption\x7b...\x7d。"
          severity := warningSeverity
          source := some "Thesis Logic"
          code := none }
    else none)

/-- `SECTION_LEVELS` from the logic analyzer. -/
def sectionLevel : ElementType → Option Nat
  | .chapter => some 0
  | .«section» => some 1
  | .subsection => some 2
  | .subsubsection => some 3
  | _ => none

/-- A `SectionStat` of `checkSectionDensity`. -/
structure SectionStat where
  element : Element
  sentences : Nat
  level : Nat
  hasChildSection : Bool

/-- Level of the stat at an index (used by the stack-popping condition). -/
def statLevelAt (stats : List SectionStat) (i : Nat) : Nat :=
  match stats.get? i with
  | some s => s.level
  | none => 0

/-- Mark the stat at an index as having a child section (the source mutates
the stat object shared between `stats` and `stack`; the stack is modelled by
indices into `stats`). -/
def bumpChildSection (stats : List SectionStat) (i : Nat) : List SectionStat :=
  match stats.get? i with
  | some s => stats.set i { s with hasChildSection := true }
  | none => stats

/-- Count one sentence for the stat at an index. -/
def bumpSentences (stats : List SectionStat) (i : Nat) : List SectionStat :=
  match stats.get? i with
  | some s => stats.set i { s with sentences := s.sentences + 1 }
  | none => stats

/-- One step of the `checkSectionDensity` loop: on a section-kind element, pop
stack entries of greater-or-equal level, mark the new top (if any) as having a
child section and push a fresh stat; on a sentence, count it for the stack
top. -/
def densityStep (st : List SectionStat × List Nat) (e : Element) :
    List SectionStat × List Nat :=
  match sectionLevel e.type with
  | some level =>
      let stack1 := st.2.dropWhile (fun i => decide (level ≤ statLevelAt st.1 i))
      let stats1 :=
        match stack1 with
        | [] => st.1
        | top :: _ => bumpChildSection st.1 top
      (stats1 ++ [⟨e, 0, level, false⟩], stats1.length :: stack1)
  | none =>
      if e.type == ElementType.sentence then
        match st.2 with
        | [] => st
        | top :: _ => (bumpSentences st.1 top, st.2)
      else st

/-- `checkSectionDensity`: warn on every collected section stat that has fewer
than the configured minimum of sentences and no child section. -/
def checkSectionDensity (minSentences : Nat) (elements : List Element) :
    List AnalyzerDiagnostic :=
  let stats := (elements.foldl densityStep ([], [])).1
  stats.filterMap (fun stat =>
    if decide (minSentences ≤ stat.sentences) || stat.hasChildSection then none
    else some
      { filePath := stat.element.filePath
        range := stat.element.range
        message :=
          "章节“" ++ stat.element.content ++ "”过于简短，建议丰富内容。"
        severity := warningSeverity
        source := some "Thesis Logic"
        code := none })

/-- JS `\w`: `[A-Za-z0-9_]`. -/
def isWordChar (c : Char) : Bool :=
  c.isAlpha || c.isDigit || c == '_'

/-- `[A-Z]`. -/
def isUpperAZ (c : Char) : Bool :=
  c.isUpper

/-- One step of splitting a character list into maximal runs of word
characters. -/
def wordRunStep (st : List (List Char) × List Char) (c : Char) :
    List (List Char) × List Char :=
  if isWordChar c then (st.1, st.2 ++ [c])
  else if st.2.isEmpty then st
  else (st.1 ++ [st.2], [])

/-- The maximal runs of word characters of a character list. -/
def wordRuns (cs : List Char) : List (List Char) :=
  let st := cs.foldl wordRunStep ([], [])
  if st.2.isEmpty then st.1 else st.1 ++ [st.2]

/-- `MIN_ACRONYM_LENGTH`. -/
def MIN_ACRONYM_LENGTH : Nat := 3

/-- `extractAcronyms` applied to a character list: the matches of
`/\b[A-Z]{2,}\b/g` are exactly the maximal word-character runs that consist
solely of at least two uppercase letters (a shorter all-uppercase slice of a
longer word run fails the word-boundary assertions), filtered to length at
least `MIN_ACRONYM_LENGTH`. -/
def acronymTokens (cs : List Char) : List String :=
  (((wordRuns cs).filter (fun run =>
      decide (2 ≤ run.length) && run.all isUpperAZ)).map
    (fun run => String.mk run)).filter
    (fun t => decide (MIN_ACRONYM_LENGTH ≤ t.length))

/-- `extractAcronyms`. -/
def extractAcronyms (text : String) : List String :=
  acronymTokens text.data

/-- State of the sequential scan for `genericParenRegex =
/([^()（）]{2,})\s*[(（]([^)）]+)[)）]/g`: either scanning (tracking how many
consecutive non-parenthesis characters precede the current position) or
inside a parenthesized group (accumulating its content). -/
inductive ParenScanState where
  | scanning (run : Nat)
  | inside (acc : List Char)

/-- One step of the paren-group scan. A group opens at `(`/`（` preceded by at
least two consecutive non-parenthesis characters (the `{2,}` prefix group;
the optional `\s*` is subsumed because whitespace is itself a
non-parenthesis character), runs to the first `)`/`）` and must be nonempty
(`[^)）]+`); scanning resumes after the closing parenthesis, mirroring the
regex `exec` loop's `lastIndex`. -/
def parenStep (st : ParenScanState × List (List Char)) (c : Char) :
    ParenScanState × List (List Char) :=
  match st.1 with
  | .scanning run =>
      if (c == '(' || c == '（') && decide (2 ≤ run) then (.inside [], st.2)
      else if c == '(' || c == '（' || c == ')' || c == '）' then
        (.scanning 0, st.2)
      else (.scanning (run + 1), st.2)
  | .inside acc =>
      if c == ')' || c == '）' then
        if acc.isEmpty then (.scanning 0, st.2) else (.scanning 0, st.2 ++ [acc])
      else (.inside (acc ++ [c]), st.2)

/-- The inner contents of all groups matched by the sequential
`genericParenRegex` scan (a group left unclosed at the end of input matches
nothing, as in the regex). -/
def parenGroups (cs : List Char) : List (List Char) :=
  (cs.foldl parenStep (.scanning 0, [])).2

/-- A line terminator for the JS `.` (which does not match across lines). -/
def isLineTerminator (c : Char) : Bool :=
  c == '\n' || c == '\r' || decide (c.toNat = 0x2028) || decide (c.toNat = 0x2029)

/-- Containment of a contiguous character subsequence. -/
def containsSeq (needle : List Char) : List Char → Bool
  | [] => needle.isEmpty
  | c :: rest => needle.isPrefixOf (c :: rest) || containsSeq needle rest

/-- Does a segment contain one of the alternatives of
`ENUMERATED_DEFINITION_HINT`'s tail group `(代表|表示|指|是)`. -/
def containsHintWord (seg : List Char) : Bool :=
  containsSeq "代表".data seg || containsSeq "表示".data seg ||
    containsSeq "指".data seg || containsSeq "是".data seg

/-- The scan for `ENUMERATED_DEFINITION_HINT = /分别.*?(代表|表示|指|是)/u`:
an occurrence of `分别` followed, on the same line (`.` does not cross line
terminators), by one of the hint words. -/
def hintScan : List Char → Bool
  | [] => false
  | c :: rest =>
      if "分别".data.isPrefixOf (c :: rest) then
        if containsHintWord
            ((rest.drop 1).takeWhile (fun ch => !isLineTerminator ch)) then
          true
        else hintScan rest
      else hintScan rest

/-- `ENUMERATED_DEFINITION_HINT.test(text)`. -/
def enumeratedDefinitionHint (text : String) : Bool :=
  hintScan text.data

/-- `extractDefinedAcronyms`: the acronym tokens found inside matched
parenthesized groups, plus every acronym of the sentence when the enumerated
definition hint fires (the source collects into a `Set`; membership is all
that is consumed, so a list suffices). -/
def extractDefinedAcronyms (text : String) : List String :=
  let fromParens := ((parenGroups text.data).map acronymTokens).flatten
  if enumeratedDefinitionHint text then fromParens ++ extractAcronyms text
  else fromParens

/-- `ACRONYM_HINT_EXAMPLE`. -/
def ACRONYM_HINT_EXAMPLE : String := "应当给出全称。"

/-- The diagnostic pushed for an undefined first acronym use (the
`relatedInformation` attachment has no bearing on any claim and is not
modelled). -/
def acronymDiagnostic (e : Element) (acronym : String) : AnalyzerDiagnostic :=
  { filePath := e.filePath
    range := e.range
    message := "缩写“" ++ acronym ++ "”首次出现，" ++ ACRONYM_HINT_EXAMPLE
    severity := warningSeverity
    source := some "Thesis Logic"
    code := some "ACRONYM_FIRST_USE" }

/-- The read-only seeding phase of `checkAbbreviationsFromIndex`: acronyms of
sentences before the start index (minus the common-acronym allowlist) seed
the seen set without producing diagnostics. -/
def seedSeenAcronyms (common : List String) (elements : List Element) :
    List String :=
  elements.foldl (fun seen e =>
    if e.type == ElementType.sentence then
      seen ++ ((acronymTokens e.content.data).filter (fun a =>
        decide (a.toUpper ∉ common)))
    else seen) []

/-- The per-sentence acronym loop: skip allowlisted and already-seen
acronyms, record first occurrences, and emit a diagnostic when the sentence
itself does not define the acronym. -/
def abbrevSentenceFold (common defined : List String) (e : Element)
    (st : List String × List AnalyzerDiagnostic) (acronyms : List String) :
    List String × List AnalyzerDiagnostic :=
  acronyms.foldl (fun st a =>
    if decide (a.toUpper ∈ common) then st
    else if decide (a ∈ st.1) then st
    else
      (st.1 ++ [a],
        if decide (a ∈ defined) then st.2
        else st.2 ++ [acronymDiagnostic e a])) st

/-- The diagnostic-producing phase of `checkAbbreviationsFromIndex`, threading
the seen-acronym set through the sentences from the start index on. -/
def abbrevScan (common : List String) :
    List String → List Element → List AnalyzerDiagnostic
  | _, [] => []
  | seen, e :: rest =>
      if e.type == ElementType.sentence then
        let st := abbrevSentenceFold common (extractDefinedAcronyms e.content)
          e (seen, []) (acronymTokens e.content.data)
        st.2 ++ abbrevScan common st.1 rest
      else abbrevScan common seen rest

/-- `checkAbbreviationsFromIndex` (the `COMMON_ACRONYMS` table lives in
`analyzers/commonAcronyms`, which is not part of the sources; its contents
are a parameter `common` throughout). -/
def checkAbbreviationsFromIndex (common : List String) (elements : List Element)
    (startIndex : Nat) : List AnalyzerDiagnostic :=
  let start := min startIndex elements.length
  abbrevScan common (seedSeenAcronyms common (elements.take start))
    (elements.drop start)

/-- `checkAbbreviations`. -/
def checkAbbreviations (common : List String) (elements : List Element) :
    List AnalyzerDiagnostic :=
  checkAbbreviationsFromIndex common elements 0

/-- `LogicAnalyzer.analyze`: the four checks over the full sequence. -/
def logicAnalyze (common : List String) (minSentences : Nat)
    (elements : List Element) : List AnalyzerDiagnostic :=
  checkSentencePunctuation elements ++ checkAbbreviations common elements ++
    checkSectionDensity minSentences elements ++ checkCaptions elements

/-- The `LogicIncrementalPlan` handed to `analyzeIncremental` (the
`elementKeyFor` accessor is rendered by passing the keyed element sequence,
see `keyedElements`). -/
structure LogicIncrementalPlan where
  punctuationTargets : List ElementKey
  captionTargets : List ElementKey
  abbreviationStartIndex : Option Nat
  sectionFilesToRecheck : List String

/-- First-seen-order deduplication (the iteration order of a JS `Map`'s
buckets). -/
def dedupAux (seen : List String) : List String → List String
  | [] => []
  | f :: rest =>
      if f ∈ seen then dedupAux seen rest
      else f :: dedupAux (f :: seen) rest

/-- The files of the section-density buckets, in first-seen order. -/
def filesFirstSeen (elems : List Element) (allowed : List String) :
    List String :=
  dedupAux [] ((elems.filter (fun e => decide (e.filePath ∈ allowed))).map
    (·.filePath))

/-- `LogicAnalyzer.analyzeIncremental`: run each check only over its plan's
targets — punctuation and captions on key-targeted elements, abbreviations
over the full sentence sequence from the clamped start index, and section
density per file bucket of the files to recheck. -/
def analyzeIncremental (common : List String) (minSentences : Nat)
    (elemsK : List (Element × ElementKey)) (plan : LogicIncrementalPlan) :
    List AnalyzerDiagnostic :=
  (if plan.punctuationTargets.isEmpty then []
   else
     checkSentencePunctuation ((elemsK.filter (fun p =>
       p.1.type == ElementType.sentence &&
         decide (p.2 ∈ plan.punctuationTargets))).map (·.1))) ++
  (match plan.abbreviationStartIndex with
   | none => []
   | some idx =>
       let sentences := (elemsK.filter (fun p =>
         p.1.type == ElementType.sentence)).map (·.1)
       checkAbbreviationsFromIndex common sentences
         (min idx sentences.length)) ++
  (if plan.sectionFilesToRecheck.isEmpty then []
   else
     let elems := elemsK.map (·.1)
     ((filesFirstSeen elems plan.sectionFilesToRecheck).map (fun f =>
       checkSectionDensity minSentences
         (elems.filter (fun e => e.filePath == f)))).flatten) ++
  (if plan.captionTargets.isEmpty then []
   else
     checkCaptions ((elemsK.filter (fun p =>
       (p.1.type == ElementType.figure || p.1.type == ElementType.table) &&
         decide (p.2 ∈ plan.captionTargets))).map (·.1)))

/-! ## The LLM analyzer (`LLMAnalyzer.analyze`) -/

/-- `LLMAnalyzer.analyze`. The provider's network responses and the heuristic
message filters applied to them are abstracted into `oracle`, which yields
the `(message, severity)` pairs that survive filtering for one element; the
code's own contribution — restriction to sentence-kind targets, anchoring
each diagnostic at the element's range and stamping the source
`` `LLM:${provider.id}` `` — is embedded directly. Cancellation and
fatal-provider early exit (which only shorten the processed prefix) are not
modelled. -/
def llmAnalyze (providerId : String) (oracle : Element → List (String × Nat))
    (elements : List Element) : List AnalyzerDiagnostic :=
  ((elements.filter (fun e => e.type == ElementType.sentence)).map (fun e =>
    (oracle e).map (fun issue =>
      { filePath := e.filePath
        range := e.range
        message := issue.1
        severity := issue.2
        source := some ("LLM:" ++ providerId)
        code := none }))).flatten

/-! ## The full-analysis run (`ThesisCheckerController.runFullAnalysis`)

The embedding follows the non-forced `mode: "full"` path with a workspace
open: both the logic and the LLM family run, the previously-current snapshots
(loaded as `"prev"` after `promote`) are the baselines, and the new snapshots
are written back. The configuration read from VS Code settings — the LLM
config signature, provider identity, oracle, `COMMON_ACRONYMS` and the
section-density minimum — is passed in as an explicit `RunConfig`. -/

/-- The run-relevant configuration state. -/
structure RunConfig where
  llmConfigSignature : String
  providerId : String
  oracle : Element → List (String × Nat)
  common : List String
  minSentences : Nat

/-- The persisted current-slot snapshots a run starts from. -/
structure RunState where
  parseCache : Option ParseCache
  logicCache : Option DiagnosticsCache
  llmCache : Option DiagnosticsCache

/-- `logicBaselineKeys`. -/
def logicBaselineKeysOf (st : RunState) : List ElementKey :=
  collectBaselineKeys st.logicCache

/-- `llmBaselineKeys`. -/
def llmBaselineKeysOf (st : RunState) : List ElementKey :=
  collectBaselineKeys st.llmCache

/-- `logicCacheAvailable = !force && logicBaselineKeys.size > 0`. -/
def logicCacheAvailableOf (st : RunState) : Bool :=
  !(logicBaselineKeysOf st).isEmpty

/-- `llmCache?.llmConfigSignature === llmConfigSignature`. -/
def llmCacheMatchesOf (cfg : RunConfig) (st : RunState) : Bool :=
  decide ((st.llmCache.bind (fun c => c.llmConfigSignature)) =
    some cfg.llmConfigSignature)

/-- `llmCacheAvailable`. -/
def llmCacheAvailableOf (cfg : RunConfig) (st : RunState) : Bool :=
  !(llmBaselineKeysOf st).isEmpty && llmCacheMatchesOf cfg st

/-- The element snapshot / change classification of this run. -/
def elementCacheOf (st : RunState) (es : List Element) : ElementCacheResult :=
  buildElementCache es st.parseCache

/-- `Object.keys(elementCache.entries)`. -/
def currentKeysOf (st : RunState) (es : List Element) : List ElementKey :=
  (elementCacheOf st es).entries.map (·.1)

/-- The sentence-kind elements with their keys (`sentenceElements` keyed). -/
def sentencesKOf (es : List Element) : List (Element × ElementKey) :=
  (keyedElements es).filter (fun p => p.1.type == ElementType.sentence)

/-- `currentSentenceKeys`. -/
def currentSentenceKeysOf (es : List Element) : List ElementKey :=
  (sentencesKOf es).map (·.2)

/-- `llmRecheckKeys`. -/
def llmRecheckKeysOf (cfg : RunConfig) (st : RunState) (es : List Element) :
    List ElementKey :=
  if llmCacheAvailableOf cfg st then
    collectRecheckKeys (currentSentenceKeysOf es) (llmBaselineKeysOf st)
  else currentSentenceKeysOf es

/-- `llmTargets`, keyed. -/
def llmTargetsKOf (cfg : RunConfig) (st : RunState) (es : List Element) :
    List (Element × ElementKey) :=
  (sentencesKOf es).filter (fun p =>
    decide (p.2 ∈ llmRecheckKeysOf cfg st es))

/-- `llmReviewKeys`. -/
def llmReviewKeysOf (cfg : RunConfig) (st : RunState) (es : List Element) :
    List ElementKey :=
  (llmTargetsKOf cfg st es).map (·.2)

/-- `changedSentenceKeys` (computed only with an available logic baseline). -/
def changedSentenceKeysOf (st : RunState) (es : List Element) :
    List ElementKey :=
  if logicCacheAvailableOf st then
    collectChangedSentenceKeys (sentencesKOf es) (logicBaselineKeysOf st)
  else []

/-- `changedCaptionKeys`. -/
def changedCaptionKeysOf (st : RunState) (es : List Element) :
    List ElementKey :=
  if logicCacheAvailableOf st then
    collectChangedCaptionKeys (keyedElements es) (logicBaselineKeysOf st)
  else []

/-- `logicHasRemovals`. -/
def logicHasRemovalsOf (st : RunState) (es : List Element) : Bool :=
  logicCacheAvailableOf st &&
    hasRemovedKeys (currentKeysOf st es) (logicBaselineKeysOf st)

/-- `abbreviationStartIndex`. -/
def abbreviationStartIndexOf (st : RunState) (es : List Element) :
    Option Nat :=
  if logicCacheAvailableOf st then
    findEarliestChangedSentenceIndex (sentencesKOf es)
      (logicBaselineKeysOf st) (logicHasRemovalsOf st es)
  else none

/-- `sectionFilesToRecheck`. -/
def sectionFilesOf (st : RunState) (es : List Element) : List String :=
  if logicCacheAvailableOf st then
    collectSectionFilesForLogic (keyedElements es) (logicBaselineKeysOf st)
      (changedSentenceKeysOf st es) (logicHasRemovalsOf st es)
  else []

/-- `abbreviationTargets`. -/
def abbreviationTargetsOf (st : RunState) (es : List Element) :
    List ElementKey :=
  collectSentenceKeysFromIndex (sentencesKOf es)
    (abbreviationStartIndexOf st es)

/-- `sectionTargets`. -/
def sectionTargetsOf (st : RunState) (es : List Element) : List ElementKey :=
  if logicCacheAvailableOf st then
    collectSectionKeysForFiles (keyedElements es) (sectionFilesOf st es)
  else []

/-- `logicRecheckKeys`: the union of the logic sub-family targets with an
available baseline, all current keys otherwise. -/
def logicRecheckKeysOf (st : RunState) (es : List Element) : List ElementKey :=
  if logicCacheAvailableOf st then
    changedSentenceKeysOf st es ++ changedCaptionKeysOf st es ++
      sectionTargetsOf st es ++ abbreviationTargetsOf st es
  else currentKeysOf st es

/-- `logicDiagnostics`: the incremental analyzer on the plan with an available
baseline, the full analyzer otherwise. -/
def logicFreshOf (cfg : RunConfig) (st : RunState) (es : List Element) :
    List AnalyzerDiagnostic :=
  if logicCacheAvailableOf st then
    analyzeIncremental cfg.common cfg.minSentences (keyedElements es)
      { punctuationTargets := changedSentenceKeysOf st es
        captionTargets := changedCaptionKeysOf st es
        abbreviationStartIndex := abbreviationStartIndexOf st es
        sectionFilesToRecheck := sectionFilesOf st es }
  else logicAnalyze cfg.common cfg.minSentences es

/-- `llmDiagnostics` (fresh). -/
def llmFreshOf (cfg : RunConfig) (st : RunState) (es : List Element) :
    List AnalyzerDiagnostic :=
  llmAnalyze cfg.providerId cfg.oracle ((llmTargetsKOf cfg st es).map (·.1))

/-- `cachedLlmEntries`. -/
def keptLlmEntriesOf (cfg : RunConfig) (st : RunState) (es : List Element) :
    List CachedDiagnostic :=
  if llmCacheAvailableOf cfg st then
    filterCachedLlmEntries st.llmCache (llmReviewKeysOf cfg st es)
      (currentSentenceKeysOf es)
  else []

/-- `cachedLogicEntries`. -/
def keptLogicEntriesOf (st : RunState) (es : List Element) :
    List CachedDiagnostic :=
  if logicCacheAvailableOf st then
    filterCachedLogicEntries st.logicCache (logicRecheckKeysOf st es)
      (currentKeysOf st es)
  else []

/-- The lookup into this run's element snapshot
(`elementCache.entries[key]`). -/
def entriesLookupOf (st : RunState) (es : List Element) :
    ElementKey → Option CachedElement :=
  fun k => (elementCacheOf st es).entries.lookup k

/-- The published diagnostic set: replayed cached logic entries, replayed
cached LLM entries, fresh logic results, fresh LLM results. -/
def publishedOf (cfg : RunConfig) (st : RunState) (es : List Element) :
    List AnalyzerDiagnostic :=
  deserializeDiagnostics (keptLogicEntriesOf st es) (entriesLookupOf st es) ++
    deserializeDiagnostics (keptLlmEntriesOf cfg st es)
      (entriesLookupOf st es) ++
    logicFreshOf cfg st es ++ llmFreshOf cfg st es

/-- `freshDiagnostics` as serialized for persistence. -/
def freshSerializedOf (cfg : RunConfig) (st : RunState) (es : List Element) :
    List CachedDiagnostic :=
  serializeDiagnostics (logicFreshOf cfg st es ++ llmFreshOf cfg st es)
    (buildElementKeyMap es)

/-- The logic snapshot written back: kept entries plus fresh entries whose
source is defined and does not start with `"LLM:"`; `elementKeys` is all
current keys. -/
def logicSavedOf (cfg : RunConfig) (st : RunState) (es : List Element) :
    DiagnosticsCache :=
  { version := CACHE_VERSION
    diagnostics := keptLogicEntriesOf st es ++
      (freshSerializedOf cfg st es).filter (fun entry =>
        match entry.source with
        | some s => !strStartsWith s "LLM:"
        | none => false)
    elementKeys := some (currentKeysOf st es)
    llmConfigSignature := none }

/-- The LLM snapshot written back: kept entries plus fresh entries whose
source starts with `"LLM:"`; `elementKeys` is all current sentence keys and
the current config signature is recorded. -/
def llmSavedOf (cfg : RunConfig) (st : RunState) (es : List Element) :
    DiagnosticsCache :=
  { version := CACHE_VERSION
    diagnostics := keptLlmEntriesOf cfg st es ++
      (freshSerializedOf cfg st es).filter (fun entry =>
        match entry.source with
        | some s => strStartsWith s "LLM:"
        | none => false)
    elementKeys := some (currentSentenceKeysOf es)
    llmConfigSignature := some cfg.llmConfigSignature }

/-- The observable outcome of one full-analysis run, together with the
intermediate planning values (exposed for the statements of the theorems
below). -/
structure RunResult where
  published : List AnalyzerDiagnostic
  state : RunState
  logicCacheAvailable : Bool
  llmCacheAvailable : Bool
  llmCacheMatches : Bool
  logicBaselineKeys : List ElementKey
  llmBaselineKeys : List ElementKey
  currentKeys : List ElementKey
  currentSentenceKeys : List ElementKey
  sentences : List (Element × ElementKey)
  changedSentenceKeys : List ElementKey
  changedCaptionKeys : List ElementKey
  logicHasRemovals : Bool
  abbreviationStartIndex : Option Nat
  abbreviationTargets : List ElementKey
  sectionFilesToRecheck : List String
  sectionTargets : List ElementKey
  logicRecheckKeys : List ElementKey
  llmRecheckKeys : List ElementKey
  keptLogicEntries : List CachedDiagnostic
  keptLlmEntries : List CachedDiagnostic
  logicDiagnostics : List AnalyzerDiagnostic
  llmDiagnostics : List AnalyzerDiagnostic

/-- The assembled result of the main path of `runFullAnalysis`. -/
def fullRunResult (cfg : RunConfig) (st : RunState) (es : List Element) :
    RunResult :=
  { published := publishedOf cfg st es
    state :=
      { parseCache := some
          { version := CACHE_VERSION
            elements := (elementCacheOf st es).entries }
        logicCache := some (logicSavedOf cfg st es)
        llmCache := some (llmSavedOf cfg st es) }
    logicCacheAvailable := logicCacheAvailableOf st
    llmCacheAvailable := llmCacheAvailableOf cfg st
    llmCacheMatches := llmCacheMatchesOf cfg st
    logicBaselineKeys := logicBaselineKeysOf st
    llmBaselineKeys := llmBaselineKeysOf st
    currentKeys := currentKeysOf st es
    currentSentenceKeys := currentSentenceKeysOf es
    sentences := sentencesKOf es
    changedSentenceKeys := changedSentenceKeysOf st es
    changedCaptionKeys := changedCaptionKeysOf st es
    logicHasRemovals := logicHasRemovalsOf st es
    abbreviationStartIndex := abbreviationStartIndexOf st es
    abbreviationTargets := abbreviationTargetsOf st es
    sectionFilesToRecheck := sectionFilesOf st es
    sectionTargets := sectionTargetsOf st es
    logicRecheckKeys := logicRecheckKeysOf st es
    llmRecheckKeys := llmRecheckKeysOf cfg st es
    keptLogicEntries := keptLogicEntriesOf st es
    keptLlmEntries := keptLlmEntriesOf cfg st es
    logicDiagnostics := logicFreshOf cfg st es
    llmDiagnostics := llmFreshOf cfg st es }

/-- The early return on `elements.length === 0`: the diagnostic collection is
cleared and no snapshot is touched. -/
def emptyRunResult (st : RunState) : RunResult :=
  { published := []
    state := st
    logicCacheAvailable := false
    llmCacheAvailable := false
    llmCacheMatches := false
    logicBaselineKeys := []
    llmBaselineKeys := []
    currentKeys := []
    currentSentenceKeys := []
    sentences := []
    changedSentenceKeys := []
    changedCaptionKeys := []
    logicHasRemovals := false
    abbreviationStartIndex := none
    abbreviationTargets := []
    sectionFilesToRecheck := []
    sectionTargets := []
    logicRecheckKeys := []
    llmRecheckKeys := []
    keptLogicEntries := []
    keptLlmEntries := []
    logicDiagnostics := []
    llmDiagnostics := [] }

/-- `runFullAnalysis` (non-forced full mode, workspace open): parse results
in, published diagnostics and new snapshots out. -/
def runFullAnalysis (cfg : RunConfig) (st : RunState) (es : List Element) :
    RunResult :=
  if es = [] then emptyRunResult st else fullRunResult cfg st es

/-! ## Shared concrete scenario material -/

/-- A one-line range on the given line. -/
def sampleRange (n : Nat) : Range := ⟨⟨n, 0⟩, ⟨n, 10⟩⟩

/-- A sentence element in `t.tex` on the given line. -/
def sampleSentence (c : String) (n : Nat) : Element :=
  { type := .sentence, content := c, filePath := "t.tex",
    range := sampleRange n, hasCaption := false }

/-- A section element in `t.tex` on the given line. -/
def sampleSection (c : String) (n : Nat) : Element :=
  { type := .«section», content := c, filePath := "t.tex",
    range := sampleRange n, hasCaption := false }

/-- A captioned figure element in `t.tex` on the given line. -/
def sampleFigure (n : Nat) : Element :=
  { type := .figure, content := "fig", filePath := "t.tex",
    range := sampleRange n, hasCaption := true }

/-- A run configuration whose oracle reports nothing. -/
def sampleConfig : RunConfig :=
  { llmConfigSignature := "sig", providerId := "openai",
    oracle := fun _ => [], common := [], minSentences := 3 }

/-- A logic snapshot whose baseline is the key set of a previously analyzed
element sequence, holding the given cached records. -/
def logicCacheFor (es : List Element) (diags : List CachedDiagnostic) :
    DiagnosticsCache :=
  { version := CACHE_VERSION, diagnostics := diags,
    elementKeys := some (elementKeys es), llmConfigSignature := none }

/-- A run state with only a logic baseline. -/
def stateFor (es : List Element) (diags : List CachedDiagnostic) : RunState :=
  { parseCache := none, logicCache := some (logicCacheFor es diags),
    llmCache := none }

/-! ## Claim C5 -/

/-- A key used by the C5 scenario. -/
def c5key : ElementKey := ⟨"t.tex", .sentence, 0, 0⟩

/-- A cached record with the logic analyzer's source. -/
def c5entryLogicSource : CachedDiagnostic :=
  ⟨"t.tex", sampleRange 0, "msg", 1, some "Thesis Logic", none, some c5key⟩

/-- A cached record with an LLM source. -/
def c5entryLlmSource : CachedDiagnostic :=
  ⟨"t.tex", sampleRange 0, "msg", 1, some "LLM:openai", none, some c5key⟩

/-! ## Claim C1 -/

/-- Modelled from the spec (for refinement comparison only, never used by the
implementation embedding): the claim's start-index policy — `0` when the
removed set contains a sentence-kind key, otherwise the position of the first
sentence of the ordered sequence whose key is not in the unchanged (baseline)
set, `none` when every sentence key is unchanged. -/
def specAbbreviationStartIndex (currentKeys baselineKeys : List ElementKey)
    (sentencesK : List (Element × ElementKey)) : Option Nat :=
  if baselineKeys.any (fun k =>
      k.type == ElementType.sentence && decide (k ∉ currentKeys)) then
    some 0
  else findEarliestAux baselineKeys sentencesK 0

/-- Five sentences, baseline run. -/
def c1oldEdit : List Element :=
  [sampleSentence "S0。" 0, sampleSentence "S1。" 1, sampleSentence "S2。" 2,
    sampleSentence "S3。" 3, sampleSentence "S4。" 4]

/-- The same five sentences with only `s3`'s content edited. -/
def c1newEdit : List Element :=
  [sampleSentence "S0。" 0, sampleSentence "S1。" 1, sampleSentence "S2。" 2,
    sampleSentence "X3。" 3, sampleSentence "S4。" 4]

/-- A figure and a sentence, baseline run. -/
def c1oldFig : List Element := [sampleFigure 1, sampleSentence "A。" 2]

/-- The figure deleted; the sentence untouched. -/
def c1newFig : List Element := [sampleSentence "A。" 2]

/-! ## Claim C2 -/

/-- Modelled from the spec (for refinement comparison only): the claim's
aggregate-family recheck set — all section-kind keys when the removed set is
non-empty, otherwise the section-kind elements located in files containing an
added sentence plus any newly added section-kind element itself. -/
def specSectionRecheck (elemsK : List (Element × ElementKey))
    (baselineKeys changedSentenceKeys : List ElementKey) (hasRemovals : Bool) :
    List ElementKey :=
  if hasRemovals then
    ((elemsK.filter (fun p => isSectionType p.1.type)).map (·.2))
  else
    ((elemsK.filter (fun p =>
        isSectionType p.1.type &&
          (decide (∃ q ∈ elemsK, q.1.filePath = p.1.filePath ∧
              q.1.type = ElementType.sentence ∧ q.2 ∈ changedSentenceKeys) ||
            decide (p.2 ∉ baselineKeys)))).map (·.2))

/-- Two sections in one file, baseline run. -/
def c2old : List Element := [sampleSection "A" 0, sampleSection "B" 1]

/-- A third section added; nothing removed, no sentences anywhere. -/
def c2new : List Element :=
  [sampleSection "A" 0, sampleSection "B" 1, sampleSection "C" 2]

/-- The key of the unchanged section `A`. -/
def c2keyA : ElementKey := ⟨"t.tex", .«section», hashContent "A", 0⟩

/-! ## Claim C3 -/

/-- The key of an element in a pass where its `(filePath, kind, hash)` bucket
is unique: occurrence index 0. -/
def keyAtZero (e : Element) : ElementKey :=
  ⟨e.filePath, e.type, hashContent e.content, 0⟩

/-- Sentences `W。`, `X。`, baseline run. -/
def c3old : List Element := [sampleSentence "W。" 0, sampleSentence "X。" 1]

/-- Only the first sentence's content edited — to the second one's content. -/
def c3new : List Element := [sampleSentence "X。" 0, sampleSentence "X。" 1]

/-- The edited sentence's new key (occurrence 0). -/
def c3keyEdited : ElementKey := ⟨"t.tex", .sentence, hashContent "X。", 0⟩

/-- The untouched second sentence's key in the new run (occurrence shifted
to 1). -/
def c3keyOther : ElementKey := ⟨"t.tex", .sentence, hashContent "X。", 1⟩

/-- Sentences `A`, `B` (both missing punctuation), baseline run for the
cached-record scenario. -/
def c3dOld : List Element := [sampleSentence "A" 1, sampleSentence "B" 2]

/-- Only the first sentence edited; `B` untouched. -/
def c3dNew : List Element := [sampleSentence "C。" 1, sampleSentence "B" 2]

/-- A cached punctuation record for the untouched sentence `B`. -/
def c3entryB : CachedDiagnostic :=
  ⟨"t.tex", sampleRange 2, "句子缺少句末标点。", 1, some "Thesis Logic", none,
    some ⟨"t.tex", .sentence, hashContent "B", 0⟩⟩

/-! ## Anchoring of analyzer output

Every diagnostic the logic analyzer produces carries the source
`"Thesis Logic"` and sits at the file and range of one of the analyzed
elements; every diagnostic of the LLM analyzer carries an `"LLM:"`-prefixed
source and sits at one of its sentence targets. -/

/-- A diagnostic is anchored at some element of a list. -/
def AnchoredAt (xs : List Element) (d : AnalyzerDiagnostic) : Prop :=
  ∃ e ∈ xs, d.filePath = e.filePath ∧ d.range = e.range

/-! ## Claim C4 -/

/-- The workspace of the C4 witness run. -/
def c4es : List Element :=
  [sampleSection "Intro" 0, sampleSentence "ABCD is used" 1, sampleFigure 2]

/-! ## Claim C6 -/

/-- One unchanged sentence whose file had two lines inserted above it:
baseline run at line 5. -/
def c6old : List Element := [sampleSentence "A is fine。" 5]

/-- The same sentence, now at line 7; its content-addressed key is
unchanged. -/
def c6new : List Element := [sampleSentence "A is fine。" 7]

/-- A cached record for the sentence, anchored at the stale line 5. -/
def c6entry : CachedDiagnostic :=
  ⟨"t.tex", sampleRange 5, "m", 1, some "Thesis Logic", none,
    some ⟨"t.tex", .sentence, hashContent "A is fine。", 0⟩⟩

/-! ## Theorems -/

/-! ## Helper lemmas -/

theorem run_eq_full {cfg : RunConfig} {st : RunState} {es : List Element}
    (h : es ≠ []) : runFullAnalysis cfg st es = fullRunResult cfg st es := by
  simp [runFullAnalysis, h]

theorem run_eq_empty {cfg : RunConfig} {st : RunState} :
    runFullAnalysis cfg st [] = emptyRunResult st := by
  simp [runFullAnalysis]

theorem nonempty_of_logicAvailable {cfg : RunConfig} {st : RunState}
    {es : List Element}
    (h : (runFullAnalysis cfg st es).logicCacheAvailable = true) : es ≠ [] := by
  intro he
  subst he
  simp [run_eq_empty, emptyRunResult] at h

theorem mem_collectRecheckKeys {k : ElementKey}
    {currentKeys baselineKeys : List ElementKey} :
    k ∈ collectRecheckKeys currentKeys baselineKeys ↔
      k ∈ currentKeys ∧ k ∉ baselineKeys := by
  simp [collectRecheckKeys, List.mem_filter]

theorem hasRemovedKeys_iff {currentKeys baselineKeys : List ElementKey} :
    hasRemovedKeys currentKeys baselineKeys = true ↔
      ∃ k ∈ baselineKeys, k ∉ currentKeys := by
  simp [hasRemovedKeys, List.any_eq_true]

theorem mem_collectChangedSentenceKeys {k : ElementKey}
    {sentencesK : List (Element × ElementKey)}
    {baselineKeys : List ElementKey} :
    k ∈ collectChangedSentenceKeys sentencesK baselineKeys ↔
      ∃ p ∈ sentencesK, p.2 = k ∧ k ∉ baselineKeys := by
  simp only [collectChangedSentenceKeys, List.mem_map, List.mem_filter,
    decide_eq_true_eq]
  constructor
  · rintro ⟨p, ⟨hp, hnb⟩, hk⟩
    exact ⟨p, hp, hk, hk ▸ hnb⟩
  · rintro ⟨p, hp, hk, hnb⟩
    exact ⟨p, ⟨hp, hk ▸ hnb⟩, hk⟩

theorem mem_collectSectionKeysForFiles {k : ElementKey}
    {elemsK : List (Element × ElementKey)} {files : List String} :
    k ∈ collectSectionKeysForFiles elemsK files ↔
      ∃ p ∈ elemsK, p.2 = k ∧ p.1.filePath ∈ files ∧
        isSectionType p.1.type = true := by
  cases hf : files.isEmpty with
  | true =>
      have : files = [] := by simpa using hf
      subst this
      simp [collectSectionKeysForFiles]
  | false =>
      rw [collectSectionKeysForFiles, hf]
      simp only [Bool.false_eq_true, if_false, List.mem_map, List.mem_filter,
        Bool.and_eq_true, decide_eq_true_eq]
      constructor
      · rintro ⟨p, ⟨hp, hin, hsec⟩, hk⟩
        exact ⟨p, hp, hk, hin, hsec⟩
      · rintro ⟨p, hp, hk, hin, hsec⟩
        exact ⟨p, ⟨hp, hin, hsec⟩, hk⟩

theorem mem_sectionFiles_noRemovals {fp : String}
    {elemsK : List (Element × ElementKey)}
    {baselineKeys changedSentenceKeys : List ElementKey} :
    fp ∈ collectSectionFilesForLogic elemsK baselineKeys changedSentenceKeys
        false ↔
      ∃ q ∈ elemsK, q.1.filePath = fp ∧
        ((q.1.type = ElementType.sentence ∧ q.2 ∈ changedSentenceKeys) ∨
          (isSectionType q.1.type = true ∧ q.2 ∉ baselineKeys)) := by
  simp only [collectSectionFilesForLogic, if_false, Bool.false_eq_true,
    List.mem_map, List.mem_filter, Bool.or_eq_true, Bool.and_eq_true,
    decide_eq_true_eq, beq_iff_eq]
  constructor
  · rintro ⟨p, ⟨hp, hcond⟩, hfp⟩
    exact ⟨p, hp, hfp, hcond⟩
  · rintro ⟨p, hp, hfp, hcond⟩
    exact ⟨p, ⟨hp, hcond⟩, hfp⟩

theorem mem_sectionFiles_removals {fp : String}
    {elemsK : List (Element × ElementKey)}
    {baselineKeys changedSentenceKeys : List ElementKey} :
    fp ∈ collectSectionFilesForLogic elemsK baselineKeys changedSentenceKeys
        true ↔
      ∃ q ∈ elemsK, q.1.filePath = fp ∧ isSectionType q.1.type = true := by
  simp only [collectSectionFilesForLogic, if_true, List.mem_map,
    List.mem_filter]
  constructor
  · rintro ⟨p, ⟨hp, hsec⟩, hfp⟩
    exact ⟨p, hp, hfp, hsec⟩
  · rintro ⟨p, hp, hfp, hsec⟩
    exact ⟨p, ⟨hp, hsec⟩, hfp⟩

theorem findEarliestAux_eq_none {unchangedKeys : List ElementKey} :
    ∀ (l : List (Element × ElementKey)) (i : Nat),
      findEarliestAux unchangedKeys l i = none ↔ ∀ p ∈ l, p.2 ∈ unchangedKeys
  | [], i => by simp [findEarliestAux]
  | p :: rest, i => by
      by_cases hp : p.2 ∈ unchangedKeys
      · simp [findEarliestAux, hp, findEarliestAux_eq_none rest (i + 1)]
      · simp [findEarliestAux, hp]

theorem findEarliestAux_eq_some {unchangedKeys : List ElementKey} :
    ∀ (l : List (Element × ElementKey)) (i j : Nat),
      findEarliestAux unchangedKeys l i = some j →
        i ≤ j ∧ (∃ p, l.get? (j - i) = some p ∧ p.2 ∉ unchangedKeys) ∧
          ∀ m p, m < j - i → l.get? m = some p → p.2 ∈ unchangedKeys
  | [], i, j => by simp [findEarliestAux]
  | p :: rest, i, j => by
      by_cases hp : p.2 ∈ unchangedKeys
      · intro h
        simp only [findEarliestAux, hp, if_true] at h
        obtain ⟨hij, ⟨q, hq, hqn⟩, hall⟩ :=
          findEarliestAux_eq_some rest (i + 1) j h
        have hij' : i ≤ j := Nat.le_of_succ_le hij
        have hsub : j - i = (j - (i + 1)) + 1 := by omega
        refine ⟨hij', ⟨q, ?_, hqn⟩, ?_⟩
        · rw [hsub]
          simpa using hq
        · intro m r hm hr
          match m, hr with
          | 0, hr =>
              simp only [List.get?] at hr
              cases hr
              exact hp
          | Nat.succ m', hr =>
              have hm' : m' < j - (i + 1) := by omega
              exact hall m' r hm' (by simpa using hr)
      · intro h
        simp only [findEarliestAux, hp, if_false, Option.some.injEq] at h
        subst h
        refine ⟨Nat.le_refl i, ⟨p, by simp, hp⟩, ?_⟩
        intro m r hm
        omega

theorem mem_filterCachedLlmEntries {entry : CachedDiagnostic}
    {c : DiagnosticsCache} {recheckKeys currentKeys : List ElementKey} :
    entry ∈ filterCachedLlmEntries (some c) recheckKeys currentKeys ↔
      entry ∈ c.diagnostics ∧ ∃ k s, entry.elementKey = some k ∧
        entry.source = some s ∧ strStartsWith s "LLM:" = true ∧
        k ∈ currentKeys ∧ k ∉ recheckKeys := by
  simp only [filterCachedLlmEntries, List.mem_filter]
  constructor
  · rintro ⟨hmem, hcond⟩
    refine ⟨hmem, ?_⟩
    match hk : entry.elementKey, hs : entry.source with
    | some k, some s =>
        simp only [hk, hs, Bool.and_eq_true, decide_eq_true_eq] at hcond
        exact ⟨k, s, rfl, rfl, hcond.1.1, hcond.1.2, hcond.2⟩
    | some k, none => simp [hk, hs] at hcond
    | none, _ => simp [hk] at hcond
  · rintro ⟨hmem, k, s, hk, hs, hpre, hcur, hrec⟩
    refine ⟨hmem, ?_⟩
    simp [hk, hs, hpre, hcur, hrec]

theorem mem_filterCachedLogicEntries {entry : CachedDiagnostic}
    {c : DiagnosticsCache} {recheckKeys currentKeys : List ElementKey} :
    entry ∈ filterCachedLogicEntries (some c) recheckKeys currentKeys ↔
      entry ∈ c.diagnostics ∧ ∃ k, entry.elementKey = some k ∧
        (∀ s, entry.source = some s → strStartsWith s "LLM:" = false) ∧
        k ∈ currentKeys ∧ k ∉ recheckKeys := by
  simp only [filterCachedLogicEntries, List.mem_filter]
  constructor
  · rintro ⟨hmem, hcond⟩
    refine ⟨hmem, ?_⟩
    match hk : entry.elementKey with
    | some k =>
        simp only [hk, Bool.and_eq_true, decide_eq_true_eq] at hcond
        refine ⟨k, rfl, ?_, hcond.1.2, hcond.2⟩
        intro s hs
        have := hcond.1.1
        rw [hs] at this
        simpa using this
    | none => simp [hk] at hcond
  · rintro ⟨hmem, k, hk, hsrc, hcur, hrec⟩
    refine ⟨hmem, ?_⟩
    simp only [hk, hcur, hrec, decide_eq_true_eq]
    match hs : entry.source with
    | some s => simp [hsrc s hs, hcur, hrec]
    | none => simp [hcur, hrec]

theorem buildKeysAux_length :
    ∀ (es : List Element) (counts : String × ElementType × Nat → Nat),
      (buildKeysAux counts es).length = es.length
  | [], _ => rfl
  | e :: rest, counts => by
      simp only [buildKeysAux, List.length_cons]
      rw [buildKeysAux_length rest]

theorem elementKeys_length (es : List Element) :
    (elementKeys es).length = es.length :=
  buildKeysAux_length es _

theorem buildKeysAux_occ_ge :
    ∀ (es : List Element) (counts : String × ElementType × Nat → Nat)
      (k : ElementKey), k ∈ buildKeysAux counts es →
      counts (k.filePath, k.type, k.hash) ≤ k.occurrence
  | [], _, _ => by simp [buildKeysAux]
  | e :: rest, counts, k => by
      intro hk
      simp only [buildKeysAux, List.mem_cons] at hk
      rcases hk with hk | hk
      · subst hk
        simp [keyBaseOf]
      · have hle := buildKeysAux_occ_ge rest _ k hk
        refine le_trans ?_ hle
        by_cases hx : (k.filePath, k.type, k.hash) = keyBaseOf e
        · rw [if_pos hx, hx]
          omega
        · rw [if_neg hx]

theorem buildKeysAux_nodup :
    ∀ (es : List Element) (counts : String × ElementType × Nat → Nat),
      (buildKeysAux counts es).Nodup
  | [], _ => List.nodup_nil
  | e :: rest, counts => by
      simp only [buildKeysAux]
      refine List.Nodup.cons ?_ (buildKeysAux_nodup rest _)
      intro hmem
      have h := buildKeysAux_occ_ge rest _ _ hmem
      simp [keyBaseOf] at h

/-- Keys assigned within one pass are pairwise distinct. -/
theorem elementKeys_nodup (es : List Element) : (elementKeys es).Nodup :=
  buildKeysAux_nodup es _

theorem buildKeysAux_get? :
    ∀ (es : List Element) (counts : String × ElementType × Nat → Nat)
      (i : Nat) (e : Element), es.get? i = some e →
      (buildKeysAux counts es).get? i =
        some ⟨e.filePath, e.type, hashContent e.content,
          counts (keyBaseOf e) +
            (es.take i).countP (fun x => decide (keyBaseOf x = keyBaseOf e))⟩
  | [], _, i, e => by simp
  | e0 :: rest, counts, 0, e => by
      intro h
      simp only [List.get?] at h
      cases h
      simp [buildKeysAux, keyBaseOf]
  | e0 :: rest, counts, Nat.succ j, e => by
      intro h
      simp only [List.get?] at h
      have IH := buildKeysAux_get? rest
        (fun x => if x = keyBaseOf e0 then counts (keyBaseOf e0) + 1
          else counts x) j e h
      simp only [buildKeysAux, List.get?]
      rw [IH]
      simp only [List.take_succ_cons, List.countP_cons, Option.some.injEq,
        ElementKey.mk.injEq, true_and]
      by_cases hb : keyBaseOf e = keyBaseOf e0
      · simp only [hb, if_pos rfl, decide_True, if_true]
        omega
      · have hb' : ¬(keyBaseOf e0 = keyBaseOf e) := fun hc => hb hc.symm
        have hd : decide (keyBaseOf e0 = keyBaseOf e) = false := by
          simp [hb']
        simp only [if_neg hb, hd, Bool.false_eq_true, if_false]
        omega

/-- The occurrence index of the key at a position is the number of earlier
elements in the same `(filePath, kind, hash)` bucket. -/
theorem elementKeys_get? (es : List Element) (i : Nat) (e : Element)
    (h : es.get? i = some e) :
    (elementKeys es).get? i =
      some ⟨e.filePath, e.type, hashContent e.content,
        (es.take i).countP (fun x => decide (keyBaseOf x = keyBaseOf e))⟩ := by
  have := buildKeysAux_get? es (fun _ => 0) i e h
  simpa [elementKeys] using this

/-! ## Claim C8 -/

/-- Claim C8: element keys are injective within one element sequence —
identity is `(filePath, kind, contentHash, occurrenceIndex)`, the occurrence
index of each position is the number of earlier elements of the same
`(filePath, kind, hash)` bucket (first-seen order), and the assigned key list
has no duplicates, so any two distinct positions (including same-file,
same-kind, identical-content elements) receive distinct keys. -/
theorem claim8_key_injectivity (es : List Element) :
    (elementKeys es).Nodup ∧
    (elementKeys es).length = es.length ∧
    ∀ i e, es.get? i = some e →
      (elementKeys es).get? i =
        some ⟨e.filePath, e.type, hashContent e.content,
          (es.take i).countP (fun x => decide (keyBaseOf x = keyBaseOf e))⟩ :=
  ⟨elementKeys_nodup es, elementKeys_length es,
    fun i e h => elementKeys_get? es i e h⟩

/-- Witness for C8: two identical sentences in the same file get occurrence
indices 0 and 1, hence distinct keys. -/
theorem claim8_witness :
    (elementKeys [sampleSentence "X。" 0, sampleSentence "X。" 1]).get? 1 =
      some ⟨"t.tex", ElementType.sentence, hashContent "X。", 1⟩ := by
  have h :=
    (claim8_key_injectivity [sampleSentence "X。" 0, sampleSentence "X。" 1]).2.2
      1 (sampleSentence "X。" 1) rfl
  rw [h]
  rfl

/-! ## Claim C9 -/

/-- Claim C9: every load of a persisted snapshot fails soft. The `try/catch`
of `loadParseCache`/`loadDiagnosticsCache` is embedded as a total function on
the explicit `LoadResult` outcome, so "never throws" holds by construction;
the theorem states that an I/O error, a parse error and a format-version
mismatch each yield `none` (cold start), and that a load only ever succeeds
with a version-matching snapshot. -/
theorem claim9_load_fails_soft :
    loadParseCache .ioError = none ∧
    loadParseCache .parseError = none ∧
    (∀ c : ParseCache, c.version ≠ CACHE_VERSION →
      loadParseCache (.ok c) = none) ∧
    (∀ c : ParseCache, c.version = CACHE_VERSION →
      loadParseCache (.ok c) = some c) ∧
    loadDiagnosticsCache .ioError = none ∧
    loadDiagnosticsCache .parseError = none ∧
    (∀ c : DiagnosticsCache, c.version ≠ CACHE_VERSION →
      loadDiagnosticsCache (.ok c) = none) ∧
    (∀ c : DiagnosticsCache, c.version = CACHE_VERSION →
      loadDiagnosticsCache (.ok c) = some c) ∧
    (∀ raw : LoadResult ParseCache, loadParseCache raw = none ∨
      ∃ c, loadParseCache raw = some c ∧ c.version = CACHE_VERSION) ∧
    (∀ raw : LoadResult DiagnosticsCache, loadDiagnosticsCache raw = none ∨
      ∃ c, loadDiagnosticsCache raw = some c ∧ c.version = CACHE_VERSION) := by
  refine ⟨rfl, rfl, ?_, ?_, rfl, rfl, ?_, ?_, ?_, ?_⟩
  · intro c hc
    simp [loadParseCache, hc]
  · intro c hc
    simp [loadParseCache, hc]
  · intro c hc
    simp [loadDiagnosticsCache, hc]
  · intro c hc
    simp [loadDiagnosticsCache, hc]
  · intro raw
    match raw with
    | .ioError => exact Or.inl rfl
    | .parseError => exact Or.inl rfl
    | .ok c =>
        by_cases hc : c.version = CACHE_VERSION
        · exact Or.inr ⟨c, by simp [loadParseCache, hc], hc⟩
        · exact Or.inl (by simp [loadParseCache, hc])
  · intro raw
    match raw with
    | .ioError => exact Or.inl rfl
    | .parseError => exact Or.inl rfl
    | .ok c =>
        by_cases hc : c.version = CACHE_VERSION
        · exact Or.inr ⟨c, by simp [loadDiagnosticsCache, hc], hc⟩
        · exact Or.inl (by simp [loadDiagnosticsCache, hc])

/-- Witness for C9: a parse snapshot of version 3 loads as absent. -/
theorem claim9_witness :
    loadParseCache (LoadResult.ok ⟨3, []⟩) = none :=
  claim9_load_fails_soft.2.2.1 ⟨3, []⟩ (by decide)

/-- Claim C5, counterexample: a record whose element key is a current key and
not a recheck key is nevertheless dropped when its source does not match the
family of the cache it sits in — a logic-source record in the LLM cache, or
an LLM-source record in the logic cache, is dropped even though the claim's
keep-iff condition holds for it. -/
theorem claim5_counterexample :
    filterCachedLlmEntries
        (some ⟨CACHE_VERSION, [c5entryLogicSource], none, none⟩) [] [c5key] =
      [] ∧
    filterCachedLogicEntries
        (some ⟨CACHE_VERSION, [c5entryLlmSource], none, none⟩) [] [c5key] =
      [] ∧
    c5key ∈ [c5key] ∧ c5key ∉ ([] : List ElementKey) := by
  refine ⟨by decide, by decide, by decide, by decide⟩

/-- Claim C5, amended: a cached record is kept iff it carries an element key,
its source matches the cache's family (starts with `"LLM:"` for the LLM
cache; does not for the logic cache, where an absent source also passes),
its key is in the current key set and its key is not in the family's recheck
set. -/
theorem claim5_amended (c : DiagnosticsCache)
    (recheckKeys currentKeys : List ElementKey) (entry : CachedDiagnostic) :
    (entry ∈ filterCachedLlmEntries (some c) recheckKeys currentKeys ↔
      entry ∈ c.diagnostics ∧ ∃ k s, entry.elementKey = some k ∧
        entry.source = some s ∧ strStartsWith s "LLM:" = true ∧
        k ∈ currentKeys ∧ k ∉ recheckKeys) ∧
    (entry ∈ filterCachedLogicEntries (some c) recheckKeys currentKeys ↔
      entry ∈ c.diagnostics ∧ ∃ k, entry.elementKey = some k ∧
        (∀ s, entry.source = some s → strStartsWith s "LLM:" = false) ∧
        k ∈ currentKeys ∧ k ∉ recheckKeys) :=
  ⟨mem_filterCachedLlmEntries, mem_filterCachedLogicEntries⟩

/-- Witness for C5: the amended keep rule replays an LLM-source record from
the LLM cache. -/
theorem claim5_witness :
    c5entryLlmSource ∈
      filterCachedLlmEntries
        (some ⟨CACHE_VERSION, [c5entryLlmSource], none, none⟩) [] [c5key] :=
  (claim5_amended ⟨CACHE_VERSION, [c5entryLlmSource], none, none⟩ [] [c5key]
      c5entryLlmSource).1.mpr
    ⟨by decide, c5key, "LLM:openai", rfl, rfl, by decide, by decide, by decide⟩

/-! ## Claim C7 -/

/-- Claim C7: with a valid LLM baseline whose stored configuration signature
matches the current one, the LLM recheck set is exactly the current
sentence-kind keys minus the family's baseline keys; when the stored
signature does not match, or when no baseline keys exist, the recheck set is
all current sentence keys. -/
theorem claim7_llm_recheck (cfg : RunConfig) (st : RunState)
    (es : List Element) :
    ((runFullAnalysis cfg st es).llmCacheAvailable = true →
      ∀ k, k ∈ (runFullAnalysis cfg st es).llmRecheckKeys ↔
        k ∈ (runFullAnalysis cfg st es).currentSentenceKeys ∧
          k ∉ (runFullAnalysis cfg st es).llmBaselineKeys) ∧
    ((runFullAnalysis cfg st es).llmCacheMatches = false →
      (runFullAnalysis cfg st es).llmRecheckKeys =
        (runFullAnalysis cfg st es).currentSentenceKeys) ∧
    ((runFullAnalysis cfg st es).llmBaselineKeys = [] →
      (runFullAnalysis cfg st es).llmRecheckKeys =
        (runFullAnalysis cfg st es).currentSentenceKeys) := by
  match es with
  | [] => simp [run_eq_empty, emptyRunResult]
  | e :: es' =>
      rw [run_eq_full (by simp)]
      refine ⟨?_, ?_, ?_⟩
      · intro h k
        simp only [fullRunResult] at h ⊢
        simp only [llmRecheckKeysOf, h, if_true]
        exact mem_collectRecheckKeys
      · intro h
        simp only [fullRunResult] at h ⊢
        simp [llmRecheckKeysOf, llmCacheAvailableOf, h]
      · intro h
        simp only [fullRunResult] at h ⊢
        have h' : collectBaselineKeys st.llmCache = [] := by
          simpa [llmBaselineKeysOf] using h
        simp [llmRecheckKeysOf, llmCacheAvailableOf, llmBaselineKeysOf, h']

/-- Witness for C7: with no LLM baseline, a concrete run's recheck set is all
its current sentence keys. -/
theorem claim7_witness :
    (runFullAnalysis sampleConfig
        (stateFor [sampleSentence "A。" 0] []) [sampleSentence "A。" 0]).llmRecheckKeys =
      (runFullAnalysis sampleConfig
        (stateFor [sampleSentence "A。" 0] []) [sampleSentence "A。" 0]).currentSentenceKeys :=
  (claim7_llm_recheck sampleConfig (stateFor [sampleSentence "A。" 0] [])
      [sampleSentence "A。" 0]).2.2 (by decide)

/-- Claim C1, counterexample. First scenario: with only `s3` edited among
`[s0..s4]`, the code's start index is `0` — not `3` as the claim's
order-dependent example demands — and the recheck suffix is all five
sentences rather than `{s3, s4}`, because the edited sentence's old key is
itself a removed sentence-kind key under the replace model, which trips the
removal flag (the claim's general rule and its own example contradict each
other on this input; the spec-modelled policy also yields `0` here). Second
scenario: deleting only a figure (no sentence-kind key removed, every
sentence unchanged) also yields start index `0`, while the claim's policy
(the spec-modelled `specAbbreviationStartIndex`) yields `none`. -/
theorem claim1_counterexample :
    ((runFullAnalysis sampleConfig (stateFor c1oldEdit [])
        c1newEdit).abbreviationStartIndex = some 0 ∧
      ¬(runFullAnalysis sampleConfig (stateFor c1oldEdit [])
        c1newEdit).abbreviationStartIndex = some 3 ∧
      (runFullAnalysis sampleConfig (stateFor c1oldEdit [])
        c1newEdit).abbreviationTargets.length = 5 ∧
      specAbbreviationStartIndex
        (currentKeysOf (stateFor c1oldEdit []) c1newEdit)
        (elementKeys c1oldEdit) (sentencesKOf c1newEdit) = some 0) ∧
    ((runFullAnalysis sampleConfig (stateFor c1oldFig [])
        c1newFig).abbreviationStartIndex = some 0 ∧
      (elementKeys c1oldFig).all (fun k =>
        !(k.type == ElementType.sentence) ||
          decide (k ∈ currentKeysOf (stateFor c1oldFig []) c1newFig)) = true ∧
      specAbbreviationStartIndex
        (currentKeysOf (stateFor c1oldFig []) c1newFig)
        (elementKeys c1oldFig) (sentencesKOf c1newFig) = none) := by
  refine ⟨⟨by decide, by decide, by decide, by decide⟩,
    by decide, by decide, by decide⟩

/-- Claim C1, amended: the start index is `0` whenever any baseline key of
any kind is absent from the current key set (which includes the old key of
every edited element, since an edit replaces its key); only when every
baseline key survives — i.e. the change is purely additive — is the start
index the position of the first sentence whose key is not in the baseline
(`none`, no recheck, when all sentence keys are unchanged); the recheck set
is exactly the key suffix of the ordered sentence sequence at or after the
start index. -/
theorem claim1_amended (cfg : RunConfig) (st : RunState) (es : List Element)
    (h : (runFullAnalysis cfg st es).logicCacheAvailable = true) :
    ((runFullAnalysis cfg st es).logicHasRemovals = true ↔
      ∃ k ∈ (runFullAnalysis cfg st es).logicBaselineKeys,
        k ∉ (runFullAnalysis cfg st es).currentKeys) ∧
    ((runFullAnalysis cfg st es).logicHasRemovals = true →
      (runFullAnalysis cfg st es).abbreviationStartIndex = some 0) ∧
    ((runFullAnalysis cfg st es).logicHasRemovals = false →
      ∀ i, (runFullAnalysis cfg st es).abbreviationStartIndex = some i →
        (∃ p, (runFullAnalysis cfg st es).sentences.get? i = some p ∧
          p.2 ∉ (runFullAnalysis cfg st es).logicBaselineKeys) ∧
        ∀ m p, m < i → (runFullAnalysis cfg st es).sentences.get? m = some p →
          p.2 ∈ (runFullAnalysis cfg st es).logicBaselineKeys) ∧
    ((runFullAnalysis cfg st es).logicHasRemovals = false →
      (runFullAnalysis cfg st es).abbreviationStartIndex = none →
      ∀ p ∈ (runFullAnalysis cfg st es).sentences,
        p.2 ∈ (runFullAnalysis cfg st es).logicBaselineKeys) ∧
    (∀ i, (runFullAnalysis cfg st es).abbreviationStartIndex = some i →
      (runFullAnalysis cfg st es).abbreviationTargets =
        ((runFullAnalysis cfg st es).sentences.drop i).map (·.2)) ∧
    ((runFullAnalysis cfg st es).abbreviationStartIndex = none →
      (runFullAnalysis cfg st es).abbreviationTargets = []) := by
  have hne : es ≠ [] := nonempty_of_logicAvailable h
  rw [run_eq_full hne] at h ⊢
  simp only [fullRunResult] at h ⊢
  refine ⟨?_, ?_, ?_, ?_, ?_, ?_⟩
  · simp only [logicHasRemovalsOf, h, Bool.true_and]
    exact hasRemovedKeys_iff
  · intro hr
    simp [abbreviationStartIndexOf, h, findEarliestChangedSentenceIndex, hr]
  · intro hr i hidx
    simp only [abbreviationStartIndexOf, h, if_true,
      findEarliestChangedSentenceIndex, hr, Bool.false_eq_true, if_false]
      at hidx
    have hspec := findEarliestAux_eq_some (sentencesKOf es) 0 i hidx
    simpa using hspec.2
  · intro hr hidx
    simp only [abbreviationStartIndexOf, h, if_true,
      findEarliestChangedSentenceIndex, hr, Bool.false_eq_true, if_false]
      at hidx
    exact (findEarliestAux_eq_none (sentencesKOf es) 0).mp hidx
  · intro i hidx
    simp [abbreviationTargetsOf, collectSentenceKeysFromIndex, hidx]
  · intro hidx
    simp [abbreviationTargetsOf, collectSentenceKeysFromIndex, hidx]

/-- Witness for C1: on the deleted-figure scenario the removal flag fires and
the start index is `0`. -/
theorem claim1_witness :
    (runFullAnalysis sampleConfig (stateFor c1oldFig [])
      c1newFig).abbreviationStartIndex = some 0 :=
  (claim1_amended sampleConfig (stateFor c1oldFig []) c1newFig
      (by decide)).2.1 (by decide)

/-- Claim C2, counterexample: adding section `C` to a file with unchanged
sections `A` and `B` (no removal, no added sentence) puts `A`'s key into the
code's recheck set — the code rechecks every section of any file containing
an added section — while the claim's policy (the spec-modelled
`specSectionRecheck`) rechecks only the added section `C` itself. -/
theorem claim2_counterexample :
    (runFullAnalysis sampleConfig (stateFor c2old []) c2new).logicHasRemovals =
      false ∧
    c2keyA ∈
      (runFullAnalysis sampleConfig (stateFor c2old []) c2new).sectionTargets ∧
    c2keyA ∉
      specSectionRecheck (keyedElements c2new) (elementKeys c2old)
        (runFullAnalysis sampleConfig (stateFor c2old [])
          c2new).changedSentenceKeys false := by
  refine ⟨by decide, by decide, by decide⟩

/-- Claim C2, amended: with a non-empty removed set the recheck set contains
every section-kind key of the workspace (and nothing of another kind);
otherwise it is exactly the section-kind elements located in files that
contain an added sentence or an added section-kind element — in particular
every newly added section itself, but also every unchanged section sharing a
file with one. -/
theorem claim2_amended (cfg : RunConfig) (st : RunState) (es : List Element)
    (h : (runFullAnalysis cfg st es).logicCacheAvailable = true) :
    ((runFullAnalysis cfg st es).logicHasRemovals = true →
      ∀ p ∈ keyedElements es, isSectionType p.1.type = true →
        p.2 ∈ (runFullAnalysis cfg st es).sectionTargets) ∧
    (∀ k ∈ (runFullAnalysis cfg st es).sectionTargets,
      ∃ p ∈ keyedElements es, p.2 = k ∧ isSectionType p.1.type = true) ∧
    ((runFullAnalysis cfg st es).logicHasRemovals = false →
      ∀ k, k ∈ (runFullAnalysis cfg st es).sectionTargets ↔
        ∃ p ∈ keyedElements es, p.2 = k ∧ isSectionType p.1.type = true ∧
          ∃ q ∈ keyedElements es, q.1.filePath = p.1.filePath ∧
            ((q.1.type = ElementType.sentence ∧
                q.2 ∈ (runFullAnalysis cfg st es).changedSentenceKeys) ∨
              (isSectionType q.1.type = true ∧
                q.2 ∉ (runFullAnalysis cfg st es).logicBaselineKeys))) := by
  have hne : es ≠ [] := nonempty_of_logicAvailable h
  rw [run_eq_full hne] at h ⊢
  simp only [fullRunResult] at h ⊢
  refine ⟨?_, ?_, ?_⟩
  · intro hr p hp hsec
    simp only [sectionTargetsOf, h, if_true]
    refine mem_collectSectionKeysForFiles.mpr ⟨p, hp, rfl, ?_, hsec⟩
    simp only [sectionFilesOf, h, if_true, hr]
    exact mem_sectionFiles_removals.mpr ⟨p, hp, rfl, hsec⟩
  · intro k hk
    simp only [sectionTargetsOf, h, if_true] at hk
    obtain ⟨p, hp, hkey, _, hsec⟩ := mem_collectSectionKeysForFiles.mp hk
    exact ⟨p, hp, hkey, hsec⟩
  · intro hr k
    simp only [sectionTargetsOf, h, if_true, sectionFilesOf, hr]
    constructor
    · intro hk
      obtain ⟨p, hp, hkey, hfiles, hsec⟩ := mem_collectSectionKeysForFiles.mp hk
      obtain ⟨q, hq, hqf, hqcond⟩ := mem_sectionFiles_noRemovals.mp hfiles
      exact ⟨p, hp, hkey, hsec, q, hq, hqf, hqcond⟩
    · rintro ⟨p, hp, hkey, hsec, q, hq, hqf, hqcond⟩
      refine mem_collectSectionKeysForFiles.mpr ⟨p, hp, hkey, ?_, hsec⟩
      exact mem_sectionFiles_noRemovals.mpr ⟨q, hq, hqf, hqcond⟩

/-- Witness for C2: on a run that deletes a figure, the unchanged section's
key is rechecked (aggregate-family conservatism). -/
theorem claim2_witness :
    (sampleSection "A" 1, ⟨"t.tex", .«section», hashContent "A", 0⟩).2 ∈
      (runFullAnalysis sampleConfig
        (stateFor [sampleFigure 0, sampleSection "A" 1] [])
        [sampleSection "A" 1]).sectionTargets :=
  (claim2_amended sampleConfig
      (stateFor [sampleFigure 0, sampleSection "A" 1] [])
      [sampleSection "A" 1] (by decide)).1 (by decide)
    (sampleSection "A" 1, ⟨"t.tex", .«section», hashContent "A", 0⟩)
    (by decide) (by decide)

theorem zip_self_map {α β : Type _} :
    ∀ (l : List α) (f : α → β), l.zip (l.map f) = l.map (fun a => (a, f a))
  | [], _ => rfl
  | a :: l, f => by simp [zip_self_map l f]

theorem buildKeysAux_of_nodup_bases :
    ∀ (es : List Element) (counts : String × ElementType × Nat → Nat),
      (∀ e ∈ es, counts (keyBaseOf e) = 0) → (es.map keyBaseOf).Nodup →
      buildKeysAux counts es = es.map keyAtZero
  | [], _, _, _ => rfl
  | e :: rest, counts, hc, hnd => by
      rw [List.map_cons] at hnd
      have hnd' := List.nodup_cons.mp hnd
      simp only [buildKeysAux, List.map_cons]
      have h1 : (⟨e.filePath, e.type, hashContent e.content,
          counts (keyBaseOf e)⟩ : ElementKey) = keyAtZero e := by
        simp [keyAtZero, hc e (List.mem_cons_self e rest)]
      rw [h1, buildKeysAux_of_nodup_bases rest _ ?_ hnd'.2]
      intro x hx
      have hne : keyBaseOf x ≠ keyBaseOf e := fun hcne =>
        hnd'.1 (hcne ▸ List.mem_map_of_mem keyBaseOf hx)
      simp only [hne, if_false]
      exact hc x (List.mem_cons_of_mem e hx)

/-- With pairwise-distinct buckets every key has occurrence index 0. -/
theorem elementKeys_of_nodup_bases (es : List Element)
    (h : (es.map keyBaseOf).Nodup) : elementKeys es = es.map keyAtZero :=
  buildKeysAux_of_nodup_bases es _ (fun _ _ => rfl) h

theorem keyedElements_of_nodup_bases (es : List Element)
    (h : (es.map keyBaseOf).Nodup) :
    keyedElements es = es.map (fun e => (e, keyAtZero e)) := by
  rw [keyedElements, elementKeys_of_nodup_bases es h, zip_self_map]

/-- Claim C3, counterexample. First scenario: editing only `s0` (from `W。`
to `X。`, duplicating `s1`'s content) shifts `s1`'s occurrence index, so the
local recheck set does NOT contain the edited sentence's new key (it
collides with `s1`'s old baseline key) and DOES contain the untouched
sentence `s1`'s key. Second scenario: an edit to an unrelated sentence
invalidates a local check's cached result — the cached punctuation record of
the untouched sentence `B` is dropped (its key lands in the combined logic
recheck set through the abbreviation suffix) and is not recomputed, so the
published set is empty. -/
theorem claim3_counterexample :
    (c3keyEdited ∉
        (runFullAnalysis sampleConfig (stateFor c3old [])
          c3new).changedSentenceKeys ∧
      c3keyOther ∈
        (runFullAnalysis sampleConfig (stateFor c3old [])
          c3new).changedSentenceKeys ∧
      c3new.get? 1 = c3old.get? 1) ∧
    ((runFullAnalysis sampleConfig (stateFor c3dOld [c3entryB])
        c3dNew).keptLogicEntries = [] ∧
      (runFullAnalysis sampleConfig (stateFor c3dOld [c3entryB])
        c3dNew).published = [] ∧
      c3dNew.get? 1 = c3dOld.get? 1) := by
  refine ⟨⟨by decide, by decide, by decide⟩, by decide, by decide, by decide⟩

/-- Claim C3, amended: the local (punctuation) recheck set is the set of
current sentence keys absent from the baseline. Provided the edit keeps
every bucket unique (no occurrence-index shifts) and the edited sentence's
new content is fresh, an edit that changes only sentence `S`'s content gives
recheck = exactly `{S's new key}`: it contains `S` and excludes every other
sentence. (A cached local record can still be dropped without recomputation
when its key enters the combined logic recheck set via another sub-family,
as the counterexample's second scenario shows.) -/
theorem claim3_amended (cfg : RunConfig) (st : RunState)
    (pre suf : List Element) (eOld e' : Element)
    (hbase : collectBaselineKeys st.logicCache =
      elementKeys (pre ++ eOld :: suf))
    (hOldType : eOld.type = ElementType.sentence)
    (hNewType : e'.type = ElementType.sentence)
    (hfresh : keyBaseOf e' ∉ (pre ++ eOld :: suf).map keyBaseOf)
    (hnodupOld : ((pre ++ eOld :: suf).map keyBaseOf).Nodup)
    (hnodupNew : ((pre ++ e' :: suf).map keyBaseOf).Nodup) :
    ∀ k, k ∈ (runFullAnalysis cfg st (pre ++ e' :: suf)).changedSentenceKeys ↔
      k = keyAtZero e' := by
  have hne : (pre ++ e' :: suf) ≠ [] := by simp
  rw [run_eq_full hne]
  simp only [fullRunResult]
  have hkOld : elementKeys (pre ++ eOld :: suf) ≠ [] := by
    intro hh
    have hlen := elementKeys_length (pre ++ eOld :: suf)
    rw [hh] at hlen
    simp only [List.length_nil, List.length_append, List.length_cons] at hlen
    omega
  have havail : logicCacheAvailableOf st = true := by
    simp only [logicCacheAvailableOf, logicBaselineKeysOf, hbase]
    cases hK : elementKeys (pre ++ eOld :: suf) with
    | nil => exact absurd hK hkOld
    | cons a l => rfl
  have hsent : sentencesKOf (pre ++ e' :: suf) =
      ((pre ++ e' :: suf).map (fun e => (e, keyAtZero e))).filter
        (fun p => p.1.type == ElementType.sentence) := by
    rw [sentencesKOf, keyedElements_of_nodup_bases _ hnodupNew]
  intro k
  simp only [changedSentenceKeysOf, havail, if_true, logicBaselineKeysOf,
    hbase]
  rw [mem_collectChangedSentenceKeys, hsent,
    elementKeys_of_nodup_bases _ hnodupOld]
  constructor
  · rintro ⟨p, hp, hkey, hnb⟩
    rw [List.mem_filter] at hp
    obtain ⟨hpmem, hptype⟩ := hp
    rw [List.mem_map] at hpmem
    obtain ⟨e, he, rfl⟩ := hpmem
    subst hkey
    rcases List.mem_append.mp he with hpre | hrest
    · exact absurd (List.mem_map_of_mem keyAtZero
        (List.mem_append.mpr (Or.inl hpre) : e ∈ pre ++ eOld :: suf)) hnb
    · rcases List.mem_cons.mp hrest with heq | hsuf
      · rw [heq]
      · exact absurd (List.mem_map_of_mem keyAtZero
          (List.mem_append.mpr (Or.inr (List.mem_cons_of_mem eOld hsuf)) :
            e ∈ pre ++ eOld :: suf)) hnb
  · rintro rfl
    refine ⟨(e', keyAtZero e'), ?_, rfl, ?_⟩
    · rw [List.mem_filter]
      refine ⟨List.mem_map_of_mem _
        (List.mem_append.mpr (Or.inr (List.mem_cons_self e' suf))), ?_⟩
      simp [hNewType]
    · intro hc
      rw [List.mem_map] at hc
      obtain ⟨x, hx, hxe⟩ := hc
      apply hfresh
      have hbx : keyBaseOf x = keyBaseOf e' := by
        simp only [keyAtZero, ElementKey.mk.injEq] at hxe
        simp [keyBaseOf, hxe.1, hxe.2.1, hxe.2.2.1]
      exact hbx ▸ List.mem_map_of_mem keyBaseOf hx

/-- Witness for C3: editing one sentence to fresh content makes its new key
the sole member of the local recheck set. -/
theorem claim3_witness :
    keyAtZero (sampleSentence "Z。" 0) ∈
      (runFullAnalysis sampleConfig
        (stateFor [sampleSentence "W。" 0, sampleSentence "X。" 1] [])
        ([] ++ sampleSentence "Z。" 0 :: [sampleSentence "X。" 1])).changedSentenceKeys :=
  (claim3_amended sampleConfig
      (stateFor [sampleSentence "W。" 0, sampleSentence "X。" 1] [])
      [] [sampleSentence "X。" 1] (sampleSentence "W。" 0)
      (sampleSentence "Z。" 0) (by decide) (by decide) (by decide) (by decide)
      (by decide) (by decide) (keyAtZero (sampleSentence "Z。" 0))).mpr rfl

theorem anchoredAt_mono {xs ys : List Element} {d : AnalyzerDiagnostic}
    (hsub : ∀ e ∈ xs, e ∈ ys) (h : AnchoredAt xs d) : AnchoredAt ys d := by
  obtain ⟨e, he, h1, h2⟩ := h
  exact ⟨e, hsub e he, h1, h2⟩

theorem mem_checkSentencePunctuation {xs : List Element}
    {d : AnalyzerDiagnostic} (hd : d ∈ checkSentencePunctuation xs) :
    d.source = some "Thesis Logic" ∧ AnchoredAt xs d := by
  rw [checkSentencePunctuation, List.mem_filterMap] at hd
  obtain ⟨e, he, hd⟩ := hd
  split at hd
  · dsimp only at hd
    split at hd
    · exact absurd hd (by simp)
    · split at hd
      · exact absurd hd (by simp)
      · cases hd
        exact ⟨rfl, e, he, rfl, rfl⟩
  · exact absurd hd (by simp)

theorem mem_checkCaptions {xs : List Element} {d : AnalyzerDiagnostic}
    (hd : d ∈ checkCaptions xs) :
    d.source = some "Thesis Logic" ∧ AnchoredAt xs d := by
  rw [checkCaptions, List.mem_filterMap] at hd
  obtain ⟨e, he, hd⟩ := hd
  split at hd
  · split at hd
    · exact absurd hd (by simp)
    · cases hd
      exact ⟨rfl, e, he, rfl, rfl⟩
  · exact absurd hd (by simp)

theorem mem_bumpChildSection {stats : List SectionStat} {i : Nat}
    {s : SectionStat} (hs : s ∈ bumpChildSection stats i) :
    ∃ s0 ∈ stats, s.element = s0.element := by
  rw [bumpChildSection] at hs
  split at hs
  case _ s0 hs0 =>
    rcases List.mem_or_eq_of_mem_set hs with hmem | rfl
    · exact ⟨s, hmem, rfl⟩
    · exact ⟨s0, List.get?_mem hs0, rfl⟩
  case _ => exact ⟨s, hs, rfl⟩

theorem mem_bumpSentences {stats : List SectionStat} {i : Nat}
    {s : SectionStat} (hs : s ∈ bumpSentences stats i) :
    ∃ s0 ∈ stats, s.element = s0.element := by
  rw [bumpSentences] at hs
  split at hs
  case _ s0 hs0 =>
    rcases List.mem_or_eq_of_mem_set hs with hmem | rfl
    · exact ⟨s, hmem, rfl⟩
    · exact ⟨s0, List.get?_mem hs0, rfl⟩
  case _ => exact ⟨s, hs, rfl⟩

theorem mem_densityStep {st : List SectionStat × List Nat} {e : Element}
    {s : SectionStat} (hs : s ∈ (densityStep st e).1) :
    s.element = e ∨ ∃ s0 ∈ st.1, s.element = s0.element := by
  rw [densityStep] at hs
  split at hs
  · rcases List.mem_append.mp hs with hmem | hnew
    · split at hmem
      · exact Or.inr ⟨s, hmem, rfl⟩
      · exact Or.inr (mem_bumpChildSection hmem)
    · rw [List.mem_singleton] at hnew
      subst hnew
      exact Or.inl rfl
  · split at hs
    · split at hs
      · exact Or.inr ⟨s, hs, rfl⟩
      · exact Or.inr (mem_bumpSentences hs)
    · exact Or.inr ⟨s, hs, rfl⟩

theorem densityFold_elements :
    ∀ (xs : List Element) (st : List SectionStat × List Nat) (s : SectionStat),
      s ∈ (xs.foldl densityStep st).1 →
      s.element ∈ xs ∨ ∃ s0 ∈ st.1, s.element = s0.element
  | [], st, s => fun hs => Or.inr ⟨s, hs, rfl⟩
  | x :: xs, st, s => by
      intro hs
      rcases densityFold_elements xs (densityStep st x) s hs with hx | ⟨s0, hs0, he⟩
      · exact Or.inl (List.mem_cons_of_mem x hx)
      · rcases mem_densityStep hs0 with h0 | ⟨s1, hs1, he1⟩
        · exact Or.inl (he ▸ h0 ▸ List.mem_cons_self x xs)
        · exact Or.inr ⟨s1, hs1, he ▸ he1⟩

theorem mem_checkSectionDensity {minS : Nat} {xs : List Element}
    {d : AnalyzerDiagnostic} (hd : d ∈ checkSectionDensity minS xs) :
    d.source = some "Thesis Logic" ∧ AnchoredAt xs d := by
  rw [checkSectionDensity, List.mem_filterMap] at hd
  obtain ⟨stat, hstat, hd⟩ := hd
  split at hd
  · exact absurd hd (by simp)
  · cases hd
    rcases densityFold_elements xs ([], []) stat hstat with hmem | ⟨s0, hs0, _⟩
    · exact ⟨rfl, stat.element, hmem, rfl, rfl⟩
    · exact absurd hs0 (by simp)

theorem mem_abbrevSentenceFold {common defined : List String} {e : Element} :
    ∀ (acronyms : List String) (st : List String × List AnalyzerDiagnostic)
      (d : AnalyzerDiagnostic),
      d ∈ (abbrevSentenceFold common defined e st acronyms).2 →
      d ∈ st.2 ∨ ∃ a, d = acronymDiagnostic e a
  | [], st, d => fun hd => Or.inl hd
  | a :: rest, st, d => by
      intro hd
      have hd' : d ∈ (abbrevSentenceFold common defined e
          (if decide (a.toUpper ∈ common) then st
            else if decide (a ∈ st.1) then st
            else (st.1 ++ [a],
              if decide (a ∈ defined) then st.2
              else st.2 ++ [acronymDiagnostic e a])) rest).2 := hd
      rcases mem_abbrevSentenceFold rest _ d hd' with hin | hnew
      · split at hin
        · exact Or.inl hin
        · split at hin
          · exact Or.inl hin
          · simp only at hin
            split at hin
            · exact Or.inl hin
            · rcases List.mem_append.mp hin with h | h
              · exact Or.inl h
              · rw [List.mem_singleton] at h
                exact Or.inr ⟨a, h⟩
      · exact Or.inr hnew

theorem mem_abbrevScan {common : List String} :
    ∀ (xs : List Element) (seen : List String) (d : AnalyzerDiagnostic),
      d ∈ abbrevScan common seen xs →
      d.source = some "Thesis Logic" ∧ AnchoredAt xs d
  | [], seen, d => by simp [abbrevScan]
  | e :: rest, seen, d => by
      intro hd
      rw [abbrevScan] at hd
      split at hd
      · rcases List.mem_append.mp hd with hl | hr
        · rcases mem_abbrevSentenceFold _ _ d hl with h0 | ⟨a, rfl⟩
          · exact absurd h0 (by simp)
          · exact ⟨rfl, e, List.mem_cons_self e rest, rfl, rfl⟩
        · obtain ⟨hsrc, hanch⟩ := mem_abbrevScan rest _ d hr
          exact ⟨hsrc, anchoredAt_mono (fun x hx => List.mem_cons_of_mem e hx)
            hanch⟩
      · obtain ⟨hsrc, hanch⟩ := mem_abbrevScan rest seen d hd
        exact ⟨hsrc, anchoredAt_mono (fun x hx => List.mem_cons_of_mem e hx)
          hanch⟩

theorem mem_checkAbbreviationsFromIndex {common : List String}
    {xs : List Element} {startIndex : Nat} {d : AnalyzerDiagnostic}
    (hd : d ∈ checkAbbreviationsFromIndex common xs startIndex) :
    d.source = some "Thesis Logic" ∧ AnchoredAt xs d := by
  rw [checkAbbreviationsFromIndex] at hd
  obtain ⟨hsrc, hanch⟩ := mem_abbrevScan _ _ d hd
  exact ⟨hsrc, anchoredAt_mono (fun x hx => List.mem_of_mem_drop hx) hanch⟩

theorem mem_logicAnalyze {common : List String} {minS : Nat}
    {xs : List Element} {d : AnalyzerDiagnostic}
    (hd : d ∈ logicAnalyze common minS xs) :
    d.source = some "Thesis Logic" ∧ AnchoredAt xs d := by
  rw [logicAnalyze] at hd
  rcases List.mem_append.mp hd with hd | hd
  rcases List.mem_append.mp hd with hd | hd
  rcases List.mem_append.mp hd with hd | hd
  · exact mem_checkSentencePunctuation hd
  · exact mem_checkAbbreviationsFromIndex hd
  · exact mem_checkSectionDensity hd
  · exact mem_checkCaptions hd

theorem mem_analyzeIncremental {common : List String} {minS : Nat}
    {elemsK : List (Element × ElementKey)} {plan : LogicIncrementalPlan}
    {d : AnalyzerDiagnostic} (hd : d ∈ analyzeIncremental common minS elemsK plan) :
    d.source = some "Thesis Logic" ∧ AnchoredAt (elemsK.map (·.1)) d := by
  rw [analyzeIncremental] at hd
  rcases List.mem_append.mp hd with hd | hd
  rcases List.mem_append.mp hd with hd | hd
  rcases List.mem_append.mp hd with hd | hd
  · split at hd
    · exact absurd hd (by simp)
    · obtain ⟨hsrc, hanch⟩ := mem_checkSentencePunctuation hd
      refine ⟨hsrc, anchoredAt_mono ?_ hanch⟩
      intro e he
      rw [List.mem_map] at he
      obtain ⟨p, hp, rfl⟩ := he
      exact List.mem_map_of_mem _ (List.mem_of_mem_filter hp)
  · split at hd
    · exact absurd hd (by simp)
    · obtain ⟨hsrc, hanch⟩ := mem_checkAbbreviationsFromIndex hd
      refine ⟨hsrc, anchoredAt_mono ?_ hanch⟩
      intro e he
      rw [List.mem_map] at he
      obtain ⟨p, hp, rfl⟩ := he
      exact List.mem_map_of_mem _ (List.mem_of_mem_filter hp)
  · split at hd
    · exact absurd hd (by simp)
    · rw [List.mem_flatten] at hd
      obtain ⟨grp, hgrp, hdg⟩ := hd
      rw [List.mem_map] at hgrp
      obtain ⟨fp, _, rfl⟩ := hgrp
      obtain ⟨hsrc, hanch⟩ := mem_checkSectionDensity hdg
      refine ⟨hsrc, anchoredAt_mono ?_ hanch⟩
      intro e he
      exact List.mem_of_mem_filter he
  · split at hd
    · exact absurd hd (by simp)
    · obtain ⟨hsrc, hanch⟩ := mem_checkCaptions hd
      refine ⟨hsrc, anchoredAt_mono ?_ hanch⟩
      intro e he
      rw [List.mem_map] at he
      obtain ⟨p, hp, rfl⟩ := he
      exact List.mem_map_of_mem _ (List.mem_of_mem_filter hp)

theorem mem_llmAnalyze {providerId : String}
    {oracle : Element → List (String × Nat)} {xs : List Element}
    {d : AnalyzerDiagnostic} (hd : d ∈ llmAnalyze providerId oracle xs) :
    d.source = some ("LLM:" ++ providerId) ∧
      ∃ e ∈ xs, e.type = ElementType.sentence ∧ d.filePath = e.filePath ∧
        d.range = e.range := by
  rw [llmAnalyze, List.mem_flatten] at hd
  obtain ⟨grp, hgrp, hdg⟩ := hd
  rw [List.mem_map] at hgrp
  obtain ⟨e, he, rfl⟩ := hgrp
  rw [List.mem_filter] at he
  rw [List.mem_map] at hdg
  obtain ⟨issue, _, rfl⟩ := hdg
  exact ⟨rfl, e, he.1, by simpa using he.2, rfl, rfl⟩

/-! ## Serialization keys and replay round trips -/

theorem zip_get?_of {α β : Type _} :
    ∀ (l1 : List α) (l2 : List β) (i : Nat) (a : α) (b : β),
      l1.get? i = some a → l2.get? i = some b →
      (l1.zip l2).get? i = some (a, b)
  | [], _, i, a, b => by simp
  | _ :: _, [], i, a, b => by simp
  | a0 :: l1, b0 :: l2, 0, a, b => by
      intro h1 h2
      simp only [List.get?] at h1 h2
      cases h1
      cases h2
      rfl
  | a0 :: l1, b0 :: l2, Nat.succ i, a, b => by
      intro h1 h2
      simpa using zip_get?_of l1 l2 i a b (by simpa using h1)
        (by simpa using h2)

theorem mem_keyedElements_of_mem {es : List Element} {e : Element}
    (he : e ∈ es) : ∃ k, (e, k) ∈ keyedElements es := by
  obtain ⟨i, hi⟩ := List.get?_of_mem he
  obtain ⟨k, hk⟩ : ∃ k, (elementKeys es).get? i = some k := by
    cases hK : (elementKeys es).get? i with
    | some k => exact ⟨k, rfl⟩
    | none =>
        rw [List.get?_eq_none] at hK
        rw [elementKeys_length] at hK
        have hnone : es.get? i = none := List.get?_eq_none.mpr hK
        rw [hnone] at hi
        cases hi
  exact ⟨k, List.get?_mem (zip_get?_of es (elementKeys es) i e k hi hk)⟩

theorem keyMap_of_anchored (es : List Element) (fp : String) (rng : Range)
    (h : ∃ e ∈ es, fp = e.filePath ∧ rng = e.range) :
    ∃ p ∈ keyedElements es, buildElementKeyMap es (fp, rng) = some p.2 ∧
      p.1.filePath = fp ∧ p.1.range = rng := by
  obtain ⟨e, he, hfp, hrng⟩ := h
  obtain ⟨k, hk⟩ := mem_keyedElements_of_mem he
  rw [buildElementKeyMap]
  cases hfind : (keyedElements es).reverse.find? (fun p =>
      decide ((p.1.filePath, p.1.range) = (fp, rng))) with
  | none =>
      exfalso
      have hall := List.find?_eq_none.mp hfind (e, k) (List.mem_reverse.mpr hk)
      simp [hfp, hrng] at hall
  | some q =>
      have hq1 := List.find?_some hfind
      have hq2 := List.mem_of_find?_eq_some hfind
      rw [List.mem_reverse] at hq2
      simp only [decide_eq_true_eq, Prod.mk.injEq] at hq1
      exact ⟨q, hq2, rfl, hq1.1, hq1.2⟩

theorem entries_indep (es : List Element) (pc pc' : Option ParseCache) :
    (buildElementCache es pc).entries = (buildElementCache es pc').entries :=
  rfl

theorem map_snd_zip_of_length {α β : Type _} :
    ∀ (l1 : List α) (l2 : List β), l1.length = l2.length →
      (l1.zip l2).map (·.2) = l2
  | [], [], _ => rfl
  | [], _ :: _, h => by simp at h
  | _ :: _, [], h => by simp at h
  | a :: l1, b :: l2, h => by
      simp only [List.zip_cons_cons, List.map_cons, List.cons.injEq, true_and]
      exact map_snd_zip_of_length l1 l2 (by simpa using h)

theorem entries_fst (es : List Element) (pc : Option ParseCache) :
    (buildElementCache es pc).entries.map (·.1) = elementKeys es := by
  show ((keyedElements es).map
      (fun p => (p.2, cachedElementOf p.1))).map (·.1) = elementKeys es
  rw [List.map_map]
  show (keyedElements es).map (·.2) = elementKeys es
  rw [keyedElements]
  exact map_snd_zip_of_length es (elementKeys es) (elementKeys_length es).symm

theorem currentKeys_eq (st : RunState) (es : List Element) :
    currentKeysOf st es = elementKeys es := by
  rw [currentKeysOf, elementCacheOf, entries_fst]

theorem lookup_of_mem_nodup {α β : Type _} [DecidableEq α] :
    ∀ (l : List (α × β)) (a : α) (b : β),
      (l.map Prod.fst).Nodup → (a, b) ∈ l → l.lookup a = some b
  | [], a, b => by simp
  | (x, y) :: rest, a, b => by
      intro hnd hmem
      rw [List.map_cons] at hnd
      have hnd' := List.nodup_cons.mp hnd
      rcases List.mem_cons.mp hmem with heq | hmem'
      · cases heq
        simp [List.lookup]
      · by_cases hax : a = x
        · subst hax
          exact absurd (List.mem_map_of_mem Prod.fst hmem') hnd'.1
        · have hbeq : (a == x) = false := by simp [hax]
          simp only [List.lookup, hbeq]
          exact lookup_of_mem_nodup rest a b hnd'.2 hmem'

theorem serialize_key_good (es : List Element) (pc : Option ParseCache)
    {d : AnalyzerDiagnostic} (h : AnchoredAt es d) :
    ∃ k ce, buildElementKeyMap es (d.filePath, d.range) = some k ∧
      k ∈ elementKeys es ∧
      (buildElementCache es pc).entries.lookup k = some ce ∧
      ce.range = d.range := by
  obtain ⟨p, hp, hmap, hfp, hrng⟩ := keyMap_of_anchored es d.filePath d.range h
  have hpz : p ∈ es.zip (elementKeys es) := by
    rw [keyedElements] at hp
    exact hp
  refine ⟨p.2, cachedElementOf p.1, hmap, (List.of_mem_zip hpz).2, ?_, ?_⟩
  · apply lookup_of_mem_nodup
    · rw [entries_fst]
      exact elementKeys_nodup es
    · exact List.mem_map_of_mem _ hp
  · rw [cachedElementOf]
    exact hrng

theorem serialize_key_sentence (es : List Element)
    (hloc : es.Pairwise (fun a b =>
      (a.filePath, a.range) ≠ (b.filePath, b.range)))
    {d : AnalyzerDiagnostic} (e : Element) (he : e ∈ es)
    (hty : e.type = ElementType.sentence) (hfp : d.filePath = e.filePath)
    (hrng : d.range = e.range) :
    ∃ k, buildElementKeyMap es (d.filePath, d.range) = some k ∧
      k ∈ currentSentenceKeysOf es := by
  obtain ⟨p, hp, hmap, hpfp, hprng⟩ :=
    keyMap_of_anchored es d.filePath d.range ⟨e, he, hfp, hrng⟩
  have hp1 : p.1 ∈ es := by
    rw [keyedElements] at hp
    exact (List.of_mem_zip hp).1
  have hpe : p.1 = e := by
    by_contra hne
    have hsymm : Symmetric (fun a b : Element =>
        (a.filePath, a.range) ≠ (b.filePath, b.range)) :=
      fun _ _ h hba => h hba.symm
    have hR := hloc.forall hsymm hp1 he hne
    apply hR
    rw [hpfp, hprng, hfp, hrng]
  refine ⟨p.2, hmap, ?_⟩
  rw [currentSentenceKeysOf, sentencesKOf]
  apply List.mem_map_of_mem
  rw [List.mem_filter]
  exact ⟨hp, by simp [hpe, hty]⟩

theorem roundtrip_single (es : List Element) (pc : Option ParseCache)
    (d : AnalyzerDiagnostic) (hanch : AnchoredAt es d)
    (hsrc : ∀ s, d.source = some s → ¬s = "") :
    deserializeDiagnostics
        (serializeDiagnostics [d] (buildElementKeyMap es))
        (fun k => (buildElementCache es pc).entries.lookup k) = [d] := by
  obtain ⟨k, ce, hmap, _, hlook, hrng⟩ := serialize_key_good es pc hanch
  obtain ⟨fp, rng, msg, sev, src, cd⟩ := d
  simp only at hmap hrng hsrc
  simp only [serializeDiagnostics, deserializeDiagnostics, List.map_cons,
    List.map_nil, hmap, hlook]
  cases src with
  | none => simp [hrng]
  | some s => simp [hrng, hsrc s rfl]

theorem deserialize_serialize (es : List Element) (pc : Option ParseCache) :
    ∀ (ds : List AnalyzerDiagnostic), (∀ d ∈ ds, AnchoredAt es d) →
      (∀ d ∈ ds, ∀ s, d.source = some s → ¬s = "") →
      deserializeDiagnostics (serializeDiagnostics ds (buildElementKeyMap es))
        (fun k => (buildElementCache es pc).entries.lookup k) = ds
  | [], _, _ => rfl
  | d :: rest, hanch, hsrc => by
      have hone := roundtrip_single es pc d (hanch d (List.mem_cons_self d rest))
        (hsrc d (List.mem_cons_self d rest))
      have hrest := deserialize_serialize es pc rest
        (fun x hx => hanch x (List.mem_cons_of_mem d hx))
        (fun x hx => hsrc x (List.mem_cons_of_mem d hx))
      simp only [serializeDiagnostics, deserializeDiagnostics, List.map_cons]
        at hone hrest ⊢
      simp only [List.map_nil] at hone
      rw [List.cons.injEq] at hone ⊢
      exact ⟨hone.1, hrest⟩

theorem deserialize_append (entries1 entries2 : List CachedDiagnostic)
    (f : ElementKey → Option CachedElement) :
    deserializeDiagnostics (entries1 ++ entries2) f =
      deserializeDiagnostics entries1 f ++ deserializeDiagnostics entries2 f :=
  List.map_append _ _ _

theorem serialize_append (ds1 ds2 : List AnalyzerDiagnostic)
    (keyMap : String × Range → Option ElementKey) :
    serializeDiagnostics (ds1 ++ ds2) keyMap =
      serializeDiagnostics ds1 keyMap ++ serializeDiagnostics ds2 keyMap :=
  List.map_append _ _ _

theorem isPrefixOf_append_self {α : Type _} [DecidableEq α] :
    ∀ (l t : List α), l.isPrefixOf (l ++ t) = true
  | [], _ => by simp [List.isPrefixOf]
  | a :: l, t => by
      simp only [List.cons_append, List.isPrefixOf, beq_self_eq_true,
        Bool.true_and]
      exact isPrefixOf_append_self l t

theorem strStartsWith_llm (pid : String) :
    strStartsWith ("LLM:" ++ pid) "LLM:" = true := by
  rw [strStartsWith, String.data_append]
  exact isPrefixOf_append_self _ _

theorem thesisLogic_not_llm : strStartsWith "Thesis Logic" "LLM:" = false := by
  decide

theorem llm_source_ne_empty (pid : String) : ¬("LLM:" ++ pid) = "" := by
  intro h
  have hlen := congrArg String.length h
  rw [String.length_append] at hlen
  have h4 : "LLM:".length = 4 := rfl
  have h0 : "".length = 0 := rfl
  omega

/-! ## The second run of an unchanged workspace -/

theorem map_fst_zip_of_length {α β : Type _} :
    ∀ (l1 : List α) (l2 : List β), l1.length = l2.length →
      (l1.zip l2).map (·.1) = l1
  | [], [], _ => rfl
  | [], _ :: _, h => by simp at h
  | _ :: _, [], h => by simp at h
  | a :: l1, b :: l2, h => by
      simp only [List.zip_cons_cons, List.map_cons, List.cons.injEq, true_and]
      exact map_fst_zip_of_length l1 l2 (by simpa using h)

theorem keyedElements_map_fst (es : List Element) :
    (keyedElements es).map (·.1) = es := by
  rw [keyedElements]
  exact map_fst_zip_of_length es (elementKeys es) (elementKeys_length es).symm

theorem currentKeys_ne_nil (st : RunState) {es : List Element}
    (hne : es ≠ []) : currentKeysOf st es ≠ [] := by
  rw [currentKeys_eq]
  intro h
  have hlen := elementKeys_length es
  rw [h] at hlen
  cases es with
  | nil => exact hne rfl
  | cons a l => simp at hlen

theorem sentencesK_nil_of_keys_nil {es : List Element}
    (h : currentSentenceKeysOf es = []) : sentencesKOf es = [] := by
  rw [currentSentenceKeysOf] at h
  exact List.map_eq_nil.mp h

theorem keyedKey_mem_current (st : RunState) {es : List Element}
    {p : Element × ElementKey} (hp : p ∈ keyedElements es) :
    p.2 ∈ currentKeysOf st es := by
  rw [currentKeys_eq]
  rw [keyedElements] at hp
  exact (List.of_mem_zip hp).2

theorem sentenceKey_mem_current (st : RunState) {es : List Element}
    {p : Element × ElementKey} (hp : p ∈ sentencesKOf es) :
    p.2 ∈ currentKeysOf st es := by
  rw [sentencesKOf] at hp
  exact keyedKey_mem_current st (List.mem_of_mem_filter hp)

theorem mem_logicFresh {cfg : RunConfig} {st : RunState} {es : List Element}
    {d : AnalyzerDiagnostic} (hd : d ∈ logicFreshOf cfg st es) :
    d.source = some "Thesis Logic" ∧ AnchoredAt es d := by
  rw [logicFreshOf] at hd
  split at hd
  · obtain ⟨hsrc, hanch⟩ := mem_analyzeIncremental hd
    rw [keyedElements_map_fst] at hanch
    exact ⟨hsrc, hanch⟩
  · exact mem_logicAnalyze hd

theorem mem_llmFresh {cfg : RunConfig} {st : RunState} {es : List Element}
    {d : AnalyzerDiagnostic} (hd : d ∈ llmFreshOf cfg st es) :
    d.source = some ("LLM:" ++ cfg.providerId) ∧
      ∃ e ∈ es, e.type = ElementType.sentence ∧ d.filePath = e.filePath ∧
        d.range = e.range := by
  rw [llmFreshOf] at hd
  obtain ⟨hsrc, e, he, hty, hfp, hrng⟩ := mem_llmAnalyze hd
  refine ⟨hsrc, e, ?_, hty, hfp, hrng⟩
  rw [List.mem_map] at he
  obtain ⟨p, hp, rfl⟩ := he
  have hp2 : p ∈ sentencesKOf es := List.mem_of_mem_filter hp
  rw [sentencesKOf] at hp2
  have hp3 := List.mem_of_mem_filter hp2
  rw [keyedElements] at hp3
  exact (List.of_mem_zip hp3).1

theorem filterCachedLogic_keep_all {c : DiagnosticsCache}
    {recheckKeys currentKeys : List ElementKey}
    (h : ∀ entry ∈ c.diagnostics, ∃ k, entry.elementKey = some k ∧
      (∀ s, entry.source = some s → strStartsWith s "LLM:" = false) ∧
      k ∈ currentKeys ∧ k ∉ recheckKeys) :
    filterCachedLogicEntries (some c) recheckKeys currentKeys =
      c.diagnostics := by
  rw [filterCachedLogicEntries]
  apply List.filter_eq_self.mpr
  intro entry hmem
  obtain ⟨k, hk, hsrc, hcur, hrec⟩ := h entry hmem
  simp only [hk]
  cases hs : entry.source with
  | some s => simp [hsrc s hs, hcur, hrec]
  | none => simp [hcur, hrec]

theorem filterCachedLlm_keep_all {c : DiagnosticsCache}
    {recheckKeys currentKeys : List ElementKey}
    (h : ∀ entry ∈ c.diagnostics, ∃ k s, entry.elementKey = some k ∧
      entry.source = some s ∧ strStartsWith s "LLM:" = true ∧
      k ∈ currentKeys ∧ k ∉ recheckKeys) :
    filterCachedLlmEntries (some c) recheckKeys currentKeys =
      c.diagnostics := by
  rw [filterCachedLlmEntries]
  apply List.filter_eq_self.mpr
  intro entry hmem
  obtain ⟨k, s, hk, hs, hpre, hcur, hrec⟩ := h entry hmem
  simp [hk, hs, hpre, hcur, hrec]

theorem keptLogic_good (cfg : RunConfig) (st : RunState) (es : List Element) :
    ∀ entry ∈ keptLogicEntriesOf st es, ∃ k, entry.elementKey = some k ∧
      (∀ s, entry.source = some s → strStartsWith s "LLM:" = false) ∧
      k ∈ currentKeysOf st es := by
  intro entry hmem
  rw [keptLogicEntriesOf] at hmem
  split at hmem
  · cases hc : st.logicCache with
    | none =>
        rw [hc, filterCachedLogicEntries] at hmem
        cases hmem
    | some c =>
        rw [hc] at hmem
        obtain ⟨_, k, hk, hsrc, hcur, _⟩ :=
          mem_filterCachedLogicEntries.mp hmem
        exact ⟨k, hk, hsrc, hcur⟩
  · cases hmem

theorem keptLlm_good (cfg : RunConfig) (st : RunState) (es : List Element) :
    ∀ entry ∈ keptLlmEntriesOf cfg st es, ∃ k s, entry.elementKey = some k ∧
      entry.source = some s ∧ strStartsWith s "LLM:" = true ∧
      k ∈ currentSentenceKeysOf es := by
  intro entry hmem
  rw [keptLlmEntriesOf] at hmem
  split at hmem
  · cases hc : st.llmCache with
    | none =>
        rw [hc, filterCachedLlmEntries] at hmem
        cases hmem
    | some c =>
        rw [hc] at hmem
        obtain ⟨_, k, s, hk, hs, hpre, hcur, _⟩ :=
          mem_filterCachedLlmEntries.mp hmem
        exact ⟨k, s, hk, hs, hpre, hcur⟩
  · cases hmem

theorem freshFilter_logic (cfg : RunConfig) (st : RunState)
    (es : List Element) :
    (freshSerializedOf cfg st es).filter (fun entry =>
        match entry.source with
        | some s => !strStartsWith s "LLM:"
        | none => false) =
      serializeDiagnostics (logicFreshOf cfg st es) (buildElementKeyMap es) := by
  rw [freshSerializedOf, serialize_append, List.filter_append]
  have h1 : (serializeDiagnostics (logicFreshOf cfg st es)
      (buildElementKeyMap es)).filter (fun entry =>
        match entry.source with
        | some s => !strStartsWith s "LLM:"
        | none => false) =
      serializeDiagnostics (logicFreshOf cfg st es) (buildElementKeyMap es) := by
    apply List.filter_eq_self.mpr
    intro entry hmem
    rw [serializeDiagnostics, List.mem_map] at hmem
    obtain ⟨d, hd, rfl⟩ := hmem
    have hsrc := (mem_logicFresh hd).1
    simp [hsrc, thesisLogic_not_llm]
  have h2 : (serializeDiagnostics (llmFreshOf cfg st es)
      (buildElementKeyMap es)).filter (fun entry =>
        match entry.source with
        | some s => !strStartsWith s "LLM:"
        | none => false) = [] := by
    apply List.filter_eq_nil.mpr
    intro entry hmem
    rw [serializeDiagnostics, List.mem_map] at hmem
    obtain ⟨d, hd, rfl⟩ := hmem
    have hsrc := (mem_llmFresh hd).1
    simp [hsrc, strStartsWith_llm]
  rw [h1, h2, List.append_nil]

theorem freshFilter_llm (cfg : RunConfig) (st : RunState) (es : List Element) :
    (freshSerializedOf cfg st es).filter (fun entry =>
        match entry.source with
        | some s => strStartsWith s "LLM:"
        | none => false) =
      serializeDiagnostics (llmFreshOf cfg st es) (buildElementKeyMap es) := by
  rw [freshSerializedOf, serialize_append, List.filter_append]
  have h1 : (serializeDiagnostics (logicFreshOf cfg st es)
      (buildElementKeyMap es)).filter (fun entry =>
        match entry.source with
        | some s => strStartsWith s "LLM:"
        | none => false) = [] := by
    apply List.filter_eq_nil.mpr
    intro entry hmem
    rw [serializeDiagnostics, List.mem_map] at hmem
    obtain ⟨d, hd, rfl⟩ := hmem
    have hsrc := (mem_logicFresh hd).1
    simp [hsrc, thesisLogic_not_llm]
  have h2 : (serializeDiagnostics (llmFreshOf cfg st es)
      (buildElementKeyMap es)).filter (fun entry =>
        match entry.source with
        | some s => strStartsWith s "LLM:"
        | none => false) =
      serializeDiagnostics (llmFreshOf cfg st es) (buildElementKeyMap es) := by
    apply List.filter_eq_self.mpr
    intro entry hmem
    rw [serializeDiagnostics, List.mem_map] at hmem
    obtain ⟨d, hd, rfl⟩ := hmem
    have hsrc := (mem_llmFresh hd).1
    simp [hsrc, strStartsWith_llm]
  rw [h1, h2, List.nil_append]

theorem logicSaved_good (cfg : RunConfig) (st : RunState) (es : List Element) :
    ∀ entry ∈ (logicSavedOf cfg st es).diagnostics,
      ∃ k, entry.elementKey = some k ∧
        (∀ s, entry.source = some s → strStartsWith s "LLM:" = false) ∧
        k ∈ currentKeysOf st es := by
  intro entry hmem
  simp only [logicSavedOf] at hmem
  rw [freshFilter_logic] at hmem
  rcases List.mem_append.mp hmem with hk | hf
  · exact keptLogic_good cfg st es entry hk
  · rw [serializeDiagnostics, List.mem_map] at hf
    obtain ⟨d, hd, rfl⟩ := hf
    obtain ⟨hsrc, hanch⟩ := mem_logicFresh hd
    obtain ⟨k, ce, hmap, hkk, _, _⟩ := serialize_key_good es st.parseCache hanch
    refine ⟨k, hmap, ?_, ?_⟩
    · intro s hs
      simp only [hsrc, Option.some.injEq] at hs
      rw [← hs]
      exact thesisLogic_not_llm
    · rw [currentKeys_eq]
      exact hkk

theorem llmSaved_good (cfg : RunConfig) (st : RunState) (es : List Element)
    (hloc : es.Pairwise (fun a b =>
      (a.filePath, a.range) ≠ (b.filePath, b.range))) :
    ∀ entry ∈ (llmSavedOf cfg st es).diagnostics,
      ∃ k s, entry.elementKey = some k ∧ entry.source = some s ∧
        strStartsWith s "LLM:" = true ∧ k ∈ currentSentenceKeysOf es := by
  intro entry hmem
  simp only [llmSavedOf] at hmem
  rw [freshFilter_llm] at hmem
  rcases List.mem_append.mp hmem with hk | hf
  · exact keptLlm_good cfg st es entry hk
  · rw [serializeDiagnostics, List.mem_map] at hf
    obtain ⟨d, hd, rfl⟩ := hf
    obtain ⟨hsrc, e, he, hty, hfp, hrng⟩ := mem_llmFresh hd
    obtain ⟨k, hmap, hkk⟩ := serialize_key_sentence es hloc e he hty hfp hrng
    exact ⟨k, "LLM:" ++ cfg.providerId, hmap, hsrc, strStartsWith_llm _, hkk⟩

theorem run2_logicBaseline (cfg : RunConfig) (st : RunState)
    (es : List Element) :
    logicBaselineKeysOf (fullRunResult cfg st es).state = currentKeysOf st es :=
  rfl

theorem run2_llmBaseline (cfg : RunConfig) (st : RunState) (es : List Element) :
    llmBaselineKeysOf (fullRunResult cfg st es).state =
      currentSentenceKeysOf es :=
  rfl

theorem run2_logicAvail (cfg : RunConfig) (st : RunState) {es : List Element}
    (hne : es ≠ []) :
    logicCacheAvailableOf (fullRunResult cfg st es).state = true := by
  rw [logicCacheAvailableOf, run2_logicBaseline]
  cases hk : currentKeysOf st es with
  | nil => exact absurd hk (currentKeys_ne_nil st hne)
  | cons a l => rfl

theorem run2_changed (cfg : RunConfig) (st : RunState) (es : List Element) :
    changedSentenceKeysOf (fullRunResult cfg st es).state es = [] := by
  rw [changedSentenceKeysOf]
  split
  · rw [run2_logicBaseline, collectChangedSentenceKeys]
    have hfil : (sentencesKOf es).filter (fun p =>
        decide (p.2 ∉ currentKeysOf st es)) = [] :=
      List.filter_eq_nil.mpr (fun p hp => by
        simp [sentenceKey_mem_current st hp])
    rw [hfil]
    rfl
  · rfl

theorem run2_captions (cfg : RunConfig) (st : RunState) (es : List Element) :
    changedCaptionKeysOf (fullRunResult cfg st es).state es = [] := by
  rw [changedCaptionKeysOf]
  split
  · rw [run2_logicBaseline, collectChangedCaptionKeys]
    have hfil : (keyedElements es).filter (fun p =>
        (p.1.type == ElementType.figure || p.1.type == ElementType.table) &&
          decide (p.2 ∉ currentKeysOf st es)) = [] :=
      List.filter_eq_nil.mpr (fun p hp => by
        simp [keyedKey_mem_current st hp])
    rw [hfil]
    rfl
  · rfl

theorem run2_removals (cfg : RunConfig) (st : RunState) (es : List Element) :
    logicHasRemovalsOf (fullRunResult cfg st es).state es = false := by
  rw [logicHasRemovalsOf, run2_logicBaseline]
  have hfalse : hasRemovedKeys (currentKeysOf (fullRunResult cfg st es).state
      es) (currentKeysOf st es) = false := by
    rw [currentKeys_eq, currentKeys_eq, hasRemovedKeys]
    cases hA : ((elementKeys es).any fun k => decide (k ∉ elementKeys es)) with
    | false => rfl
    | true =>
        obtain ⟨k, hk, hdk⟩ := List.any_eq_true.mp hA
        simp only [decide_eq_true_eq] at hdk
        exact absurd hk hdk
  rw [hfalse, Bool.and_false]

theorem run2_abbrevIdx (cfg : RunConfig) (st : RunState) (es : List Element) :
    abbreviationStartIndexOf (fullRunResult cfg st es).state es = none := by
  rw [abbreviationStartIndexOf]
  split
  · rw [findEarliestChangedSentenceIndex, run2_removals]
    simp only [Bool.false_eq_true, if_false]
    rw [run2_logicBaseline]
    exact (findEarliestAux_eq_none (sentencesKOf es) 0).mpr
      (fun p hp => sentenceKey_mem_current st hp)
  · rfl

theorem run2_abbrevTargets (cfg : RunConfig) (st : RunState)
    (es : List Element) :
    abbreviationTargetsOf (fullRunResult cfg st es).state es = [] := by
  rw [abbreviationTargetsOf, run2_abbrevIdx]
  rfl

theorem run2_sectionFiles (cfg : RunConfig) (st : RunState)
    (es : List Element) :
    sectionFilesOf (fullRunResult cfg st es).state es = [] := by
  rw [sectionFilesOf]
  split
  · rw [run2_logicBaseline, run2_changed, run2_removals,
      collectSectionFilesForLogic]
    simp only [Bool.false_eq_true, if_false]
    have hfil : (keyedElements es).filter (fun p =>
        (p.1.type == ElementType.sentence && decide (p.2 ∈ ([] : List ElementKey))) ||
          (isSectionType p.1.type && decide (p.2 ∉ currentKeysOf st es))) = [] :=
      List.filter_eq_nil.mpr (fun p hp => by
        simp [keyedKey_mem_current st hp])
    rw [hfil]
    rfl
  · rfl

theorem run2_sectionTargets (cfg : RunConfig) (st : RunState)
    (es : List Element) :
    sectionTargetsOf (fullRunResult cfg st es).state es = [] := by
  rw [sectionTargetsOf]
  split
  · rw [run2_sectionFiles]
    rfl
  · rfl

theorem run2_logicRecheck (cfg : RunConfig) (st : RunState) {es : List Element}
    (hne : es ≠ []) :
    logicRecheckKeysOf (fullRunResult cfg st es).state es = [] := by
  rw [logicRecheckKeysOf, run2_logicAvail cfg st hne]
  simp only [if_true]
  rw [run2_changed, run2_captions, run2_sectionTargets, run2_abbrevTargets]
  rfl

theorem run2_logicFresh (cfg : RunConfig) (st : RunState) {es : List Element}
    (hne : es ≠ []) :
    logicFreshOf cfg (fullRunResult cfg st es).state es = [] := by
  rw [logicFreshOf, run2_logicAvail cfg st hne]
  simp only [if_true]
  rw [run2_changed, run2_captions, run2_abbrevIdx, run2_sectionFiles]
  rfl

theorem run2_llmMatches (cfg : RunConfig) (st : RunState) (es : List Element) :
    llmCacheMatchesOf cfg (fullRunResult cfg st es).state = true := by
  rw [llmCacheMatchesOf]
  have hC : (fullRunResult cfg st es).state.llmCache =
      some (llmSavedOf cfg st es) := rfl
  rw [hC]
  simp [llmSavedOf]

theorem run2_llmRecheck (cfg : RunConfig) (st : RunState) (es : List Element) :
    llmRecheckKeysOf cfg (fullRunResult cfg st es).state es = [] := by
  by_cases hcs : currentSentenceKeysOf es = []
  · rw [llmRecheckKeysOf]
    split
    · rw [collectRecheckKeys, hcs]
      rfl
    · exact hcs
  · have havail : llmCacheAvailableOf cfg (fullRunResult cfg st es).state =
        true := by
      rw [llmCacheAvailableOf, run2_llmBaseline, run2_llmMatches,
        Bool.and_true]
      cases hk : currentSentenceKeysOf es with
      | nil => exact absurd hk hcs
      | cons a l => rfl
    rw [llmRecheckKeysOf, havail]
    simp only [if_true]
    rw [run2_llmBaseline, collectRecheckKeys]
    exact List.filter_eq_nil.mpr (fun k hk => by simp [hk])

theorem run2_llmTargets (cfg : RunConfig) (st : RunState) (es : List Element) :
    llmTargetsKOf cfg (fullRunResult cfg st es).state es = [] := by
  rw [llmTargetsKOf, run2_llmRecheck]
  exact List.filter_eq_nil.mpr (fun p hp => by simp)

theorem run2_llmReview (cfg : RunConfig) (st : RunState) (es : List Element) :
    llmReviewKeysOf cfg (fullRunResult cfg st es).state es = [] := by
  rw [llmReviewKeysOf, run2_llmTargets]
  rfl

theorem run2_llmFresh (cfg : RunConfig) (st : RunState) (es : List Element) :
    llmFreshOf cfg (fullRunResult cfg st es).state es = [] := by
  rw [llmFreshOf, run2_llmTargets]
  rfl

theorem run2_kept_logic (cfg : RunConfig) (st : RunState) {es : List Element}
    (hne : es ≠ []) :
    keptLogicEntriesOf (fullRunResult cfg st es).state es =
      (logicSavedOf cfg st es).diagnostics := by
  rw [keptLogicEntriesOf, run2_logicAvail cfg st hne]
  simp only [if_true]
  rw [run2_logicRecheck cfg st hne]
  show filterCachedLogicEntries (some (logicSavedOf cfg st es)) []
    (currentKeysOf (fullRunResult cfg st es).state es) =
    (logicSavedOf cfg st es).diagnostics
  apply filterCachedLogic_keep_all
  intro entry hmem
  obtain ⟨k, hk, hsrc, hcur⟩ := logicSaved_good cfg st es entry hmem
  refine ⟨k, hk, hsrc, ?_, by simp⟩
  rw [currentKeys_eq] at hcur ⊢
  exact hcur

theorem run2_kept_llm (cfg : RunConfig) (st : RunState) {es : List Element}
    (hloc : es.Pairwise (fun a b =>
      (a.filePath, a.range) ≠ (b.filePath, b.range))) :
    keptLlmEntriesOf cfg (fullRunResult cfg st es).state es =
      (llmSavedOf cfg st es).diagnostics := by
  by_cases hcs : currentSentenceKeysOf es = []
  · have hdiag : (llmSavedOf cfg st es).diagnostics = [] := by
      apply List.eq_nil_iff_forall_not_mem.mpr
      intro entry hmem
      obtain ⟨k, s, _, _, _, hcur⟩ := llmSaved_good cfg st es hloc entry hmem
      rw [hcs] at hcur
      cases hcur
    rw [hdiag, keptLlmEntriesOf]
    split
    · show filterCachedLlmEntries (some (llmSavedOf cfg st es)) _ _ = []
      rw [filterCachedLlmEntries, hdiag]
      rfl
    · rfl
  · have havail : llmCacheAvailableOf cfg (fullRunResult cfg st es).state =
        true := by
      rw [llmCacheAvailableOf, run2_llmBaseline, run2_llmMatches,
        Bool.and_true]
      cases hk : currentSentenceKeysOf es with
      | nil => exact absurd hk hcs
      | cons a l => rfl
    rw [keptLlmEntriesOf, havail]
    simp only [if_true]
    rw [run2_llmReview]
    show filterCachedLlmEntries (some (llmSavedOf cfg st es)) []
      (currentSentenceKeysOf es) = (llmSavedOf cfg st es).diagnostics
    apply filterCachedLlm_keep_all
    intro entry hmem
    obtain ⟨k, s, hk, hs, hpre, hcur⟩ := llmSaved_good cfg st es hloc entry hmem
    exact ⟨k, s, hk, hs, hpre, hcur, by simp⟩

theorem perm_shuffle {α : Type _} (A B L M : List α) :
    ((A ++ L) ++ (B ++ M)).Perm (A ++ B ++ L ++ M) := by
  have h1 : (A ++ L) ++ (B ++ M) = A ++ (L ++ (B ++ M)) := by
    simp [List.append_assoc]
  have h2 : A ++ B ++ L ++ M = A ++ (B ++ (L ++ M)) := by
    simp [List.append_assoc]
  rw [h1, h2]
  apply List.Perm.append_left
  have h3 : L ++ (B ++ M) = (L ++ B) ++ M := (List.append_assoc L B M).symm
  have h4 : B ++ (L ++ M) = (B ++ L) ++ M := (List.append_assoc B L M).symm
  rw [h3, h4]
  exact List.Perm.append_right M List.perm_append_comm

/-- Claim C4: running the full pipeline a second time with no edits between
runs leaves every family's recheck set empty (local `changedSentenceKeys`,
caption family, file-aggregate `sectionTargets`, order-dependent
`abbreviationTargets`, their union `logicRecheckKeys`, and the
content-addressed `llmRecheckKeys`), produces no fresh diagnostics in either
family, and publishes the same diagnostic set as the first run (as a
permutation: the merge order interleaves the two families' cached and fresh
blocks differently, element-for-element the sets are identical). The
hypothesis asks distinct elements to occupy distinct (file, range)
locations, which holds for any parsed workspace. -/
theorem claim4_idempotence (cfg : RunConfig) (st : RunState)
    (es : List Element)
    (hloc : es.Pairwise (fun a b =>
      (a.filePath, a.range) ≠ (b.filePath, b.range))) :
    (runFullAnalysis cfg (runFullAnalysis cfg st es).state
      es).changedSentenceKeys = [] ∧
    (runFullAnalysis cfg (runFullAnalysis cfg st es).state
      es).changedCaptionKeys = [] ∧
    (runFullAnalysis cfg (runFullAnalysis cfg st es).state
      es).sectionTargets = [] ∧
    (runFullAnalysis cfg (runFullAnalysis cfg st es).state
      es).abbreviationTargets = [] ∧
    (runFullAnalysis cfg (runFullAnalysis cfg st es).state
      es).logicRecheckKeys = [] ∧
    (runFullAnalysis cfg (runFullAnalysis cfg st es).state
      es).llmRecheckKeys = [] ∧
    (runFullAnalysis cfg (runFullAnalysis cfg st es).state
      es).logicDiagnostics = [] ∧
    (runFullAnalysis cfg (runFullAnalysis cfg st es).state
      es).llmDiagnostics = [] ∧
    ((runFullAnalysis cfg (runFullAnalysis cfg st es).state
      es).published).Perm ((runFullAnalysis cfg st es).published) := by
  by_cases hne : es = []
  · subst hne
    simp only [run_eq_empty]
    exact ⟨rfl, rfl, rfl, rfl, rfl, rfl, rfl, rfl, List.Perm.refl _⟩
  · rw [run_eq_full hne, run_eq_full hne]
    refine ⟨run2_changed cfg st es, run2_captions cfg st es,
      run2_sectionTargets cfg st es, run2_abbrevTargets cfg st es,
      run2_logicRecheck cfg st hne, run2_llmRecheck cfg st es,
      run2_logicFresh cfg st hne, run2_llmFresh cfg st es, ?_⟩
    show (publishedOf cfg (fullRunResult cfg st es).state es).Perm
      (publishedOf cfg st es)
    rw [publishedOf, publishedOf]
    rw [run2_kept_logic cfg st hne, run2_kept_llm cfg st hloc,
      run2_logicFresh cfg st hne, run2_llmFresh cfg st es]
    have hsl : (logicSavedOf cfg st es).diagnostics =
        keptLogicEntriesOf st es ++
          serializeDiagnostics (logicFreshOf cfg st es)
            (buildElementKeyMap es) := by
      simp only [logicSavedOf]
      rw [freshFilter_logic]
    have hml : (llmSavedOf cfg st es).diagnostics =
        keptLlmEntriesOf cfg st es ++
          serializeDiagnostics (llmFreshOf cfg st es)
            (buildElementKeyMap es) := by
      simp only [llmSavedOf]
      rw [freshFilter_llm]
    rw [hsl, hml, deserialize_append, deserialize_append]
    have hlk : entriesLookupOf (fullRunResult cfg st es).state es =
        entriesLookupOf st es := rfl
    rw [hlk]
    have hrt_logic : deserializeDiagnostics
        (serializeDiagnostics (logicFreshOf cfg st es)
          (buildElementKeyMap es)) (entriesLookupOf st es) =
        logicFreshOf cfg st es := by
      exact deserialize_serialize es st.parseCache (logicFreshOf cfg st es)
        (fun d hd => (mem_logicFresh hd).2)
        (fun d hd s hs => by
          have hsrc := (mem_logicFresh hd).1
          rw [hsrc] at hs
          cases hs
          decide)
    have hrt_llm : deserializeDiagnostics
        (serializeDiagnostics (llmFreshOf cfg st es)
          (buildElementKeyMap es)) (entriesLookupOf st es) =
        llmFreshOf cfg st es := by
      exact deserialize_serialize es st.parseCache (llmFreshOf cfg st es)
        (fun d hd => by
          obtain ⟨_, e, he, _, hfp, hrng⟩ := mem_llmFresh hd
          exact ⟨e, he, hfp, hrng⟩)
        (fun d hd s hs => by
          obtain ⟨hsrc, _⟩ := mem_llmFresh hd
          rw [hsrc] at hs
          cases hs
          exact llm_source_ne_empty cfg.providerId)
    rw [hrt_logic, hrt_llm]
    simp only [List.append_nil]
    exact perm_shuffle _ _ _ _

/-- Witness for C4: on a concrete three-element workspace, the second run's
content-addressed recheck set is empty. -/
theorem claim4_witness :
    (runFullAnalysis sampleConfig
      (runFullAnalysis sampleConfig ⟨none, none, none⟩ c4es).state
      c4es).llmRecheckKeys = [] :=
  (claim4_idempotence sampleConfig ⟨none, none, none⟩ c4es
      (by decide)).2.2.2.2.2.1

/-! ## Claim C10 -/

theorem llmSaved_source (cfg : RunConfig) (st : RunState) (es : List Element) :
    ∀ entry ∈ (llmSavedOf cfg st es).diagnostics,
      ∃ s, entry.source = some s ∧ strStartsWith s "LLM:" = true := by
  intro entry hmem
  simp only [llmSavedOf] at hmem
  rw [freshFilter_llm] at hmem
  rcases List.mem_append.mp hmem with hk | hf
  · obtain ⟨k, s, _, hs, hpre, _⟩ := keptLlm_good cfg st es entry hk
    exact ⟨s, hs, hpre⟩
  · rw [serializeDiagnostics, List.mem_map] at hf
    obtain ⟨d, hd, rfl⟩ := hf
    exact ⟨"LLM:" ++ cfg.providerId, (mem_llmFresh hd).1, strStartsWith_llm _⟩

/-- Claim C10: diagnostics are partitioned between the two family caches by
source string — the LLM analyzer stamps `"LLM:" ++ providerId`, the logic
analyzer (full and incremental) stamps `"Thesis Logic"` (which does not
start with `"LLM:"`), the cached-entry filters keep LLM-sourced records only
in the LLM cache and non-LLM-sourced records only in the logic cache, and no
record is ever persisted into both written snapshots of one run. -/
theorem claim10_source_partition :
    (∀ (providerId : String) (oracle : Element → List (String × Nat))
      (xs : List Element) (d : AnalyzerDiagnostic),
      d ∈ llmAnalyze providerId oracle xs →
        ∃ s, d.source = some s ∧ strStartsWith s "LLM:" = true) ∧
    (∀ (common : List String) (minS : Nat) (xs : List Element)
      (d : AnalyzerDiagnostic), d ∈ logicAnalyze common minS xs →
        d.source = some "Thesis Logic") ∧
    (∀ (common : List String) (minS : Nat)
      (elemsK : List (Element × ElementKey)) (plan : LogicIncrementalPlan)
      (d : AnalyzerDiagnostic), d ∈ analyzeIncremental common minS elemsK plan →
        d.source = some "Thesis Logic") ∧
    strStartsWith "Thesis Logic" "LLM:" = false ∧
    (∀ (c1 c2 : Option DiagnosticsCache)
      (rk1 ck1 rk2 ck2 : List ElementKey) (entry : CachedDiagnostic),
      ¬(entry ∈ filterCachedLlmEntries c1 rk1 ck1 ∧
        entry ∈ filterCachedLogicEntries c2 rk2 ck2)) ∧
    (∀ (cfg : RunConfig) (st : RunState) (es : List Element)
      (entry : CachedDiagnostic),
      ¬(entry ∈ (llmSavedOf cfg st es).diagnostics ∧
        entry ∈ (logicSavedOf cfg st es).diagnostics)) := by
  refine ⟨?_, ?_, ?_, thesisLogic_not_llm, ?_, ?_⟩
  · intro providerId oracle xs d hd
    exact ⟨"LLM:" ++ providerId, (mem_llmAnalyze hd).1, strStartsWith_llm _⟩
  · intro common minS xs d hd
    exact (mem_logicAnalyze hd).1
  · intro common minS elemsK plan d hd
    exact (mem_analyzeIncremental hd).1
  · rintro c1 c2 rk1 ck1 rk2 ck2 entry ⟨h1, h2⟩
    cases c1 with
    | none => cases h1
    | some c =>
        cases c2 with
        | none => cases h2
        | some c' =>
            obtain ⟨_, k, s, _, hs, hpre, _, _⟩ :=
              mem_filterCachedLlmEntries.mp h1
            obtain ⟨_, k', _, hsrc, _, _⟩ :=
              mem_filterCachedLogicEntries.mp h2
            rw [hsrc s hs] at hpre
            cases hpre
  · rintro cfg st es entry ⟨h1, h2⟩
    obtain ⟨s, hs, hpre⟩ := llmSaved_source cfg st es entry h1
    obtain ⟨k, _, hsrc, _⟩ := logicSaved_good cfg st es entry h2
    rw [hsrc s hs] at hpre
    cases hpre

/-- Witness for C10: a concrete LLM-sourced record kept by the LLM filter is
not simultaneously kept by the logic filter. -/
theorem claim10_witness :
    ¬(c5entryLlmSource ∈
        filterCachedLlmEntries
          (some ⟨CACHE_VERSION, [c5entryLlmSource], none, none⟩) [] [c5key] ∧
      c5entryLlmSource ∈
        filterCachedLogicEntries
          (some ⟨CACHE_VERSION, [c5entryLlmSource], none, none⟩) [] [c5key]) :=
  claim10_source_partition.2.2.2.2.1
    (some ⟨CACHE_VERSION, [c5entryLlmSource], none, none⟩)
    (some ⟨CACHE_VERSION, [c5entryLlmSource], none, none⟩) [] [c5key] []
    [c5key] c5entryLlmSource

/-- Claim C6: when a kept record is replayed its range is replaced by the
range of the current element stored under the record's key whenever the
element resolves in the current element map, and the stored range is used
only as a fallback; concretely, an unchanged element whose file gained two
lines above it has its replayed diagnostic reported at the new line 7, not
the cached line 5. -/
theorem claim6_location_drift (entries : List CachedDiagnostic)
    (cacheFn : ElementKey → Option CachedElement) (i : Nat)
    (entry : CachedDiagnostic) (hget : entries.get? i = some entry) :
    (∀ k ce, entry.elementKey = some k → cacheFn k = some ce →
      (deserializeDiagnostics entries cacheFn).get? i = some
        { filePath := entry.filePath
          range := ce.range
          message := entry.message
          severity := entry.severity
          source := match entry.source with
            | some s => if s = "" then none else some s
            | none => none
          code := entry.code }) ∧
    ((entry.elementKey = none ∨
        ∃ k, entry.elementKey = some k ∧ cacheFn k = none) →
      (deserializeDiagnostics entries cacheFn).get? i = some
        { filePath := entry.filePath
          range := entry.range
          message := entry.message
          severity := entry.severity
          source := match entry.source with
            | some s => if s = "" then none else some s
            | none => none
          code := entry.code }) ∧
    ((runFullAnalysis sampleConfig (stateFor c6old [c6entry])
        c6new).published =
      [⟨"t.tex", sampleRange 7, "m", 1, some "Thesis Logic", none⟩] ∧
      c6entry.range = sampleRange 5 ∧ sampleRange 5 ≠ sampleRange 7) := by
  refine ⟨?_, ?_, by decide, by decide, by decide⟩
  · intro k ce hk hce
    simp only [deserializeDiagnostics, List.get?_map, hget, Option.map_some',
      hk, hce]
  · intro hcase
    rcases hcase with hk | ⟨k, hk, hce⟩
    · simp only [deserializeDiagnostics, List.get?_map, hget, Option.map_some',
        hk]
    · simp only [deserializeDiagnostics, List.get?_map, hget, Option.map_some',
        hk, hce]

/-- Witness for C6: the drift scenario's kept record replayed through the
general rule lands on the current element's line-7 range. -/
theorem claim6_witness :
    (deserializeDiagnostics [c6entry]
        (entriesLookupOf (stateFor c6old [c6entry]) c6new)).get? 0 = some
      { filePath := "t.tex"
        range := sampleRange 7
        message := "m"
        severity := 1
        source := some "Thesis Logic"
        code := none } := by
  have h := (claim6_location_drift [c6entry]
      (entriesLookupOf (stateFor c6old [c6entry]) c6new) 0 c6entry rfl).1
      ⟨"t.tex", .sentence, hashContent "A is fine。", 0⟩
      (cachedElementOf (sampleSentence "A is fine。" 7)) rfl (by decide)
  rw [h]
  rfl

end ThesisChecker
